import Mathlib

/-!
Verification of the brownout load-balancer simulator core against its
specification.  The development embeds three subsystems:

* the event-scheduling kernel (`SimulatorKernel`): its Python source file is
  not among the provided sources (only its test-suite
  `SimulatorKernel_test.py` is), so it is modelled from the spec;
* the per-backend request execution model (`Replica`, from `src/Replica.py`);
* the fleet lifecycle controller (`AutoScaler`, from
  `src/plants/autoscaler.py`).

Simulated virtual time and service times are embedded as rationals (the
Python floats carry exact decimal values in all scenarios of interest and the
spec states its conservation properties exactly).
-/

set_option linter.unusedVariables false

/-! ## Event kernel (modelled from the spec) -/

universe u v

variable {κ : Type} {σ : Type}

/-- Modelled from the spec: the source file `SimulatorKernel.py` is absent
from the provided sources (only its test-suite is present).  An `Event` is a
time-tagged callback together with an injection-order sequence number used
only to break exact-time ties (FIFO). -/
structure Event (κ : Type) where
  fireTime : ℚ
  seqNo : ℕ
  callback : κ
  deriving DecidableEq

/-- Modelled from the spec: the kernel owns the virtual clock `now` (starting
at 0) and the queue of pending events; `nextSeq` is the injection-order
counter for tie-breaking. -/
structure SimulatorKernel (κ : Type) where
  now : ℚ
  queue : List (Event κ)
  nextSeq : ℕ
  deriving DecidableEq

/-- Modelled from the spec: `add(delay, callback)` schedules `callback` to
fire at `now + delay`; it always creates a new `Event` with a fresh sequence
number and does not check for duplicate identities. -/
def SimulatorKernel.add (k : SimulatorKernel κ) (delay : ℚ) (cb : κ) : SimulatorKernel κ :=
  { now := k.now
    queue := k.queue ++ [⟨k.now + delay, k.nextSeq, cb⟩]
    nextSeq := k.nextSeq + 1 }

/-- Modelled from the spec: `update(delay, callback)` cancels any currently
pending `Event` whose callback identity equals this callback's, then performs
the equivalent of `add`. -/
def SimulatorKernel.update [DecidableEq κ] (k : SimulatorKernel κ) (delay : ℚ) (cb : κ) :
    SimulatorKernel κ :=
  SimulatorKernel.add
    { k with queue := k.queue.filter (fun e => decide (e.callback ≠ cb)) } delay cb

/-- Strict-or-tie comparison on events: `a` fires before `b` when its
`fireTime` is smaller, or at equal times when it was injected earlier. -/
def evBefore (a b : Event κ) : Bool :=
  decide (a.fireTime < b.fireTime) ||
    (decide (a.fireTime = b.fireTime) && decide (a.seqNo ≤ b.seqNo))

/-- Modelled from the spec: the pending event with the smallest
`(fireTime, seqNo)` pair, if any. -/
def findMin : List (Event κ) → Option (Event κ)
  | [] => none
  | e :: es =>
    match findMin es with
    | none => some e
    | some m => if evBefore e m then some e else some m

/-- Remove the (unique, by the sequence-counter discipline) event carrying
sequence number `n`. -/
def removeSeq (l : List (Event κ)) (n : ℕ) : List (Event κ) :=
  l.filter (fun e => decide (e.seqNo ≠ n))

/-- A kernel together with the state its callbacks act upon. -/
structure Sys (κ σ : Type) where
  kern : SimulatorKernel κ
  st : σ
  deriving DecidableEq

/-- Modelled from the spec: one iteration of `run` — pop the event with the
smallest `(fireTime, seqNo)`, stop (`none`) if the queue is empty or if the
event's `fireTime` exceeds `untilT` (inclusive upper bound: an event whose
time equals `untilT` is executed), otherwise advance `now` to its `fireTime`
and invoke its callback `h`, which may schedule further events. -/
def kstep (h : κ → Sys κ σ → Sys κ σ) (untilT : Option ℚ) (S : Sys κ σ) : Option (Sys κ σ) :=
  match findMin S.kern.queue with
  | none => none
  | some e =>
    match untilT with
    | some u =>
      if e.fireTime ≤ u then
        some (h e.callback ⟨⟨e.fireTime, removeSeq S.kern.queue e.seqNo, S.kern.nextSeq⟩, S.st⟩)
      else none
    | none =>
      some (h e.callback ⟨⟨e.fireTime, removeSeq S.kern.queue e.seqNo, S.kern.nextSeq⟩, S.st⟩)

/-- Modelled from the spec: `run(untilT)` as a fuelled iteration of `kstep`;
when `kstep` stops, the state is left unchanged. -/
def runFuel (h : κ → Sys κ σ → Sys κ σ) (untilT : Option ℚ) : ℕ → Sys κ σ → Sys κ σ
  | 0, S => S
  | n + 1, S =>
    match kstep h untilT S with
    | none => S
    | some T => runFuel h untilT n T

/-! ## Kernel unit-test scenarios (`SimulatorKernel_test.py`) -/

/-- A fresh kernel, as the test-suite constructs one. -/
def kern0 : SimulatorKernel Unit := ⟨0, [], 0⟩

/-- Callback of `test_update_event`: record the virtual time at which it
fires (the Python callback asserts `sim.now == 100` and appends it). -/
def logNow (u : Unit) (S : Sys Unit (List ℚ)) : Sys Unit (List ℚ) :=
  { S with st := S.st ++ [S.kern.now] }

/-- The `test_update_event` scenario: `add(0, toRun)` then `update(100, toRun)`
then `run()` (fuel 5 is more than the single firing needs). -/
def updateScenario : Sys Unit (List ℚ) :=
  runFuel logNow none 5 ⟨(kern0.add 0 ()).update 100 (), []⟩

/-- Callback of `test_run_until`: record the firing time and re-arm itself
100 time units later. -/
def periodic (u : Unit) (S : Sys Unit (List ℚ)) : Sys Unit (List ℚ) :=
  ⟨S.kern.add 100 (), S.st ++ [S.kern.now]⟩

/-- The `test_run_until` scenario: `runPeriodically` is first invoked
directly (recording time 0 and scheduling the next round), after which
`run(until = 1000)` drives the kernel. -/
def periodicScenario : Sys Unit (List ℚ) :=
  runFuel periodic (some 1000) 30 (periodic () ⟨kern0, []⟩)

/-! ## Basic kernel lemmas -/

theorem evBefore_le {a b : Event κ} (h : evBefore a b = true) : a.fireTime ≤ b.fireTime := by
  rcases Bool.or_eq_true_iff.mp h with h1 | h1
  · exact le_of_lt (of_decide_eq_true h1)
  · exact le_of_eq (of_decide_eq_true (Bool.and_eq_true_iff.mp h1).1)

theorem evBefore_false_le {a b : Event κ} (h : evBefore a b = false) :
    b.fireTime ≤ a.fireTime := by
  unfold evBefore at h
  rcases Bool.or_eq_false_iff.mp h with ⟨h1, h2⟩
  exact le_of_not_lt (of_decide_eq_false h1)

theorem findMin_eq_none {l : List (Event κ)} : findMin l = none ↔ l = [] := by
  cases l with
  | nil => simp [findMin]
  | cons e es =>
    simp only [findMin]
    constructor
    · intro h
      cases hm : findMin es with
      | none => rw [hm] at h; simp at h
      | some m => rw [hm] at h; by_cases hb : evBefore e m <;> simp [hb] at h
    · intro h; exact absurd h (List.cons_ne_nil e es)

theorem findMin_le {l : List (Event κ)} {m : Event κ} (hm : findMin l = some m) :
    ∀ e ∈ l, m.fireTime ≤ e.fireTime := by
  induction l generalizing m with
  | nil => simp [findMin] at hm
  | cons a as ih =>
    intro e he
    simp only [findMin] at hm
    cases hma : findMin as with
    | none =>
      rw [hma] at hm
      simp only [Option.some.injEq] at hm
      subst hm
      rcases List.mem_cons.mp he with rfl | hmem
      · exact le_refl _
      · rw [findMin_eq_none.mp hma] at hmem; simp at hmem
    | some m0 =>
      rw [hma] at hm
      cases hb : evBefore a m0 with
      | true =>
        simp only [hb, if_true, Option.some.injEq] at hm
        subst hm
        rcases List.mem_cons.mp he with rfl | hmem
        · exact le_refl _
        · exact le_trans (evBefore_le hb) (ih hma e hmem)
      | false =>
        simp only [hb, Bool.false_eq_true, if_false, Option.some.injEq] at hm
        subst hm
        rcases List.mem_cons.mp he with rfl | hmem
        · exact evBefore_false_le hb
        · exact ih hma e hmem

theorem runFuel_halt {h : κ → Sys κ σ → Sys κ σ} {u : Option ℚ} {S : Sys κ σ}
    (hs : kstep h u S = none) : ∀ n, runFuel h u n S = S := by
  intro n
  cases n with
  | zero => rfl
  | succ n => simp [runFuel, hs]

theorem kstep_some_runFuel {h : κ → Sys κ σ → Sys κ σ} {u : Option ℚ} {S T : Sys κ σ}
    (hs : kstep h u S = some T) (n : ℕ) : runFuel h u (n + 1) S = runFuel h u n T := by
  simp [runFuel, hs]

theorem runFuel_add (h : κ → Sys κ σ → Sys κ σ) (u : Option ℚ) (a b : ℕ) (S : Sys κ σ) :
    runFuel h u (a + b) S = runFuel h u b (runFuel h u a S) := by
  induction a generalizing S with
  | zero => simp [runFuel]
  | succ a ih =>
    cases hs : kstep h u S with
    | none =>
      rw [runFuel_halt hs, runFuel_halt hs, runFuel_halt hs]
    | some T =>
      have h2 : a + 1 + b = (a + b) + 1 := by omega
      rw [h2, kstep_some_runFuel hs (a + b), ih, kstep_some_runFuel hs a]

/-! ## C2 and C3: kernel replace semantics and inclusive run boundary -/

/-- C2: for every callback identity, `update(delay, callback)` cancels any
pending `Event` with that callback identity and schedules a new one — the
pending events with that identity after `update` are exactly the newly
created one, so at most one pending instance survives and the most recent
`add`/`update` wins; concretely, in the `test_update_event` scenario
(`add(0, toRun)`, then `update(100, toRun)`, then `run()`) the callback fires
exactly once, at virtual time 100 and never at time 0. -/
theorem c2_update_replaces :
    (∀ (κ : Type) (inst : DecidableEq κ) (k : SimulatorKernel κ) (d : ℚ) (cb : κ),
        (SimulatorKernel.update k d cb).queue.filter (fun e => decide (e.callback = cb)) =
          [⟨k.now + d, k.nextSeq, cb⟩]) ∧
      updateScenario.st = [100] := by
  constructor
  · intro κ inst k d cb
    unfold SimulatorKernel.update SimulatorKernel.add
    simp only [List.filter_append]
    have h1 : (k.queue.filter (fun e => decide (e.callback ≠ cb))).filter
        (fun e => decide (e.callback = cb)) = [] := by
      rw [List.filter_eq_nil_iff]
      intro e he
      have h2 := List.of_mem_filter he
      simp only [decide_eq_true_eq] at h2 ⊢
      exact h2
    rw [h1]
    simp
  · norm_num [updateScenario, runFuel, kstep, findMin, evBefore, removeSeq, logNow,
      SimulatorKernel.update, SimulatorKernel.add, kern0, List.filter]

/-- C3: `run(until)` never stops while an event with `fireTime ≤ until` is
pending — the upper bound is inclusive — and in the `test_run_until`
scenario a periodic action re-arming itself every 100 time units, run with
`until = 1000`, fires exactly 11 times, at virtual times 0, 100, ..., 1000
(events scheduled during the run included). -/
theorem c3_run_until_inclusive :
    (∀ (κ σ : Type) (h : κ → Sys κ σ → Sys κ σ) (u : ℚ) (S : Sys κ σ) (e : Event κ),
        e ∈ S.kern.queue → e.fireTime ≤ u → kstep h (some u) S ≠ none) ∧
      periodicScenario.st = [0, 100, 200, 300, 400, 500, 600, 700, 800, 900, 1000] := by
  constructor
  · intro κ σ h u S e he hle
    unfold kstep
    cases hm : findMin S.kern.queue with
    | none => rw [findMin_eq_none.mp hm] at he; simp at he
    | some m =>
      have hmu : m.fireTime ≤ u := le_trans (findMin_le hm e he) hle
      simp [hmu]
  · norm_num [periodicScenario, runFuel, kstep, findMin, evBefore, removeSeq, periodic,
      SimulatorKernel.add, kern0, List.filter]

/-- Witness for `c3_run_until_inclusive`: its first conjunct applied to a
concrete one-event kernel state. -/
theorem c3_run_until_inclusive_witness :
    kstep logNow (some 0) ⟨⟨0, [⟨0, 0, ()⟩], 1⟩, []⟩ ≠ none :=
  c3_run_until_inclusive.1 Unit (List ℚ) logNow 0 ⟨⟨0, [⟨0, 0, ()⟩], 1⟩, []⟩ ⟨0, 0, ()⟩
    (List.mem_singleton.mpr rfl) (le_refl 0)

/-! ## Replica (from `src/Replica.py`) -/

/-- Callback identities a `Replica` registers with the kernel:
`_onScheduleRequests`, `_onCompleted` and `_runReportLoop`. -/
inductive RCb
  | onScheduleRequests
  | onCompleted
  | runReportLoop
  deriving DecidableEq

/-- `Replica.Request`: slots `requestId`, `withOptional`, `arrival`,
`departure`, `remainingTime` (the `replyTo` capability is represented by the
ghost completion log on the replica state). -/
structure RRequest where
  requestId : ℕ
  withOptional : Bool
  arrival : ℚ
  departure : Option ℚ
  remainingTime : ℚ
  deriving DecidableEq

/-- State of a `Replica`.  `zs` is the replica's own seeded random stream,
embedded as the sequence of standard-normal samples that
`random.Random.normalvariate` draws from; `completedLog` is a ghost log of
the `replyTo.reply(requestId, headers)` calls issued by `_onCompleted`,
recording the completed request (with its stamped departure time). -/
structure Replica where
  timeSlice : ℚ
  timeY : ℚ × ℚ
  timeN : ℚ × ℚ
  reportPeriod : ℚ
  activeRequests : List RRequest
  latestLatencies : List ℚ
  activeTime : ℚ
  activeTimeStarted : Option ℚ
  lastActiveTime : ℚ
  zs : List ℚ
  completedLog : List RRequest
  deriving DecidableEq

/-- A replica attached to the kernel driving it. -/
abbrev RSys := Sys RCb Replica

/-- `Replica.getActiveTime`: the lazily computed busy time. -/
def Replica.getActiveTime (s : Replica) (now : ℚ) : ℚ :=
  s.activeTime +
    (match s.activeTimeStarted with
     | some t0 => now - t0
     | none => 0)

/-- `Replica.drawServiceTime`: select `(mu, sigma)` by `withOptional`, then
return `max(normalvariate(mu, sigma), 0)`, where `normalvariate mu sigma` is
embedded as `mu + sigma * z` for the next standard-normal sample `z` of the
replica's seeded stream. -/
def Replica.drawServiceTime (s : Replica) (withOptional : Bool) : ℚ × Replica :=
  let p := if withOptional then s.timeY else s.timeN
  let z := s.zs.headD 0
  (max (p.1 + p.2 * z) 0, { s with zs := s.zs.tail })

/-- Body of `Replica._onScheduleRequests`: pop the head request, mark the
server busy if it was not, run the head for `min(timeSlice, remainingTime)`;
if it then has no remaining time, put it back at the head and schedule
`_onCompleted` after the slice, otherwise append it at the tail (round
robin) and schedule `_onScheduleRequests` after the slice.  On an empty
queue the Python code raises `IndexError`; that state is unreachable under
the single-pending-event invariant and is embedded as a no-op. -/
def onScheduleBody (S : RSys) : RSys :=
  match S.st.activeRequests with
  | [] => S
  | r :: rest =>
    let started := some (S.st.activeTimeStarted.getD S.kern.now)
    let runT := min S.st.timeSlice r.remainingTime
    let r2 := { r with remainingTime := r.remainingTime - runT }
    if r2.remainingTime = 0 then
      ⟨S.kern.add runT RCb.onCompleted,
        { S.st with activeRequests := r2 :: rest, activeTimeStarted := started }⟩
    else
      ⟨S.kern.add runT RCb.onScheduleRequests,
        { S.st with activeRequests := rest ++ [r2], activeTimeStarted := started }⟩

/-- Body of `Replica._onCompleted`: accrue busy time, pop the head request,
stamp its departure, record the latency sample, emit the reply (ghost log),
and if the queue is still non-empty call `_onScheduleRequests` directly.
The states in which `activeTimeStarted` is `None` or the queue is empty
would raise in Python; they are unreachable under the invariant and are
embedded as no-ops. -/
def onCompletedBody (S : RSys) : RSys :=
  match S.st.activeTimeStarted with
  | none => S
  | some t0 =>
    match S.st.activeRequests with
    | [] => S
    | r :: rest =>
      let r2 := { r with departure := some S.kern.now }
      let T : RSys :=
        ⟨S.kern,
          { S.st with
              activeTime := S.st.activeTime + (S.kern.now - t0)
              activeTimeStarted := none
              activeRequests := rest
              latestLatencies := S.st.latestLatencies ++ [S.kern.now - r.arrival]
              completedLog := S.st.completedLog ++ [r2] }⟩
      if rest = [] then T else onScheduleBody T

/-- Body of `Replica._runReportLoop`: report the utilization
`(getActiveTime - lastActiveTime) / reportPeriod` and the latency aggregates
to the external metrics sink (an external interface, not recorded here),
remember `lastActiveTime`, reset the latency window, and re-arm itself after
`reportPeriod`. -/
def runReportLoopBody (S : RSys) : RSys :=
  ⟨S.kern.add S.st.reportPeriod RCb.runReportLoop,
    { S.st with
        lastActiveTime := S.st.getActiveTime S.kern.now
        latestLatencies := [] }⟩

/-- Dispatch of the replica's kernel callbacks. -/
def rhandler : RCb → RSys → RSys
  | RCb.onScheduleRequests => onScheduleBody
  | RCb.onCompleted => onCompletedBody
  | RCb.runReportLoop => runReportLoopBody

/-- `Replica.request(requestId, replyTo, headers)`: if the queue of active
requests is empty, schedule `_onScheduleRequests` with delay 0 (before
appending); read `withOptional` from the headers dictionary with default
`False`; draw the service time; append the new request at the tail. -/
def Replica.request (S : RSys) (requestId : ℕ) (headers : List (String × Bool)) : RSys :=
  let k := if S.st.activeRequests = [] then S.kern.add 0 RCb.onScheduleRequests else S.kern
  let w := (headers.lookup "withOptional").getD false
  let d := S.st.drawServiceTime w
  let r : RRequest :=
    { requestId := requestId, withOptional := w, arrival := S.kern.now,
      departure := none, remainingTime := d.1 }
  ⟨k, { d.2 with activeRequests := d.2.activeRequests ++ [r] }⟩

/-- A freshly constructed replica attached to a fresh kernel: the Python
constructor initialises every field and invokes `_runReportLoop` once
directly, which performs the initial (empty) report and schedules the
periodic report event. -/
def initReplica (timeSlice : ℚ) (timeY timeN : ℚ × ℚ) (zs : List ℚ) : RSys :=
  runReportLoopBody
    ⟨⟨0, [], 0⟩,
      { timeSlice := timeSlice, timeY := timeY, timeN := timeN, reportPeriod := 1,
        activeRequests := [], latestLatencies := [], activeTime := 0,
        activeTimeStarted := none, lastActiveTime := 0, zs := zs, completedLog := [] }⟩

/-- The two-request scenario of the work-conservation property: a replica
with quantum `q` whose with-optional service time distribution is `(s1, 0)`
and without-optional distribution `(s2, 0)`, receiving request 1 (with
optional content) and request 2 (without) at time 0.  With zero standard
deviations the drawn service times are `max s1 0` and `max s2 0`. -/
def mkTwo (q s1 s2 : ℚ) : RSys :=
  Replica.request
    (Replica.request (initReplica q (s1, 0) (s2, 0) [0, 0]) 1 [("withOptional", true)])
    2 []

/-- Total remaining service time over a request list. -/
def sumRem (l : List RRequest) : ℚ := (l.map RRequest.remainingTime).sum

/-- The immutable identity of a request: id, content flag and arrival time. -/
def rkey (r : RRequest) : ℕ × Bool × ℚ := (r.requestId, r.withOptional, r.arrival)

/-! ## Replica invariants -/

/-- Invariant of a replica whose request queue is non-empty.  The kernel
holds exactly two pending events: the periodic report event
`(tR, nR, runReportLoop)` and exactly one scheduling event `(tE, nE, cb)`
with `cb` a dispatch or completion step.  `C` is the conservation constant
(`tE` plus all remaining service time), `Φ` the busy-time offset
(`activeTime - busySince` while the server is busy). -/
structure BusyInv (C Φ tR : ℚ) (nR : ℕ) (tE : ℚ) (nE : ℕ) (cb : RCb) (S : RSys) : Prop where
  hq : 0 < S.st.timeSlice
  hne : S.st.activeRequests ≠ []
  hcb : cb = RCb.onScheduleRequests ∨ cb = RCb.onCompleted
  hqueue : S.kern.queue = [⟨tR, nR, RCb.runReportLoop⟩, ⟨tE, nE, cb⟩] ∨
           S.kern.queue = [⟨tE, nE, cb⟩, ⟨tR, nR, RCb.runReportLoop⟩]
  hseq : nR ≠ nE
  hnR : nR < S.kern.nextSeq
  hnE : nE < S.kern.nextSeq
  hnowR : S.kern.now ≤ tR
  hnowE : S.kern.now ≤ tE
  hcons : tE + sumRem S.st.activeRequests = C
  hrem : ∀ r ∈ S.st.activeRequests, 0 ≤ r.remainingTime
  hdep : ∀ r ∈ S.st.activeRequests, r.departure = none
  harr : ∀ r ∈ S.st.activeRequests, r.arrival ≤ S.kern.now
  hcompl : cb = RCb.onCompleted →
    ∃ r rest, S.st.activeRequests = r :: rest ∧ r.remainingTime = 0
  hbusy : S.st.activeTimeStarted = some (S.st.activeTime - Φ) ∨
          (S.st.activeTimeStarted = none ∧ cb = RCb.onScheduleRequests ∧
            Φ = S.st.activeTime - tE)
  hrp : S.st.reportPeriod = 1

/-- Invariant of a replica whose request queue is empty: the only pending
event is the periodic report event and the server is idle. -/
structure IdleInv (S : RSys) : Prop where
  hq : 0 < S.st.timeSlice
  hempty : S.st.activeRequests = []
  hstarted : S.st.activeTimeStarted = none
  hqueue : ∃ tR nR, S.kern.queue = [⟨tR, nR, RCb.runReportLoop⟩] ∧
    S.kern.now ≤ tR ∧ nR < S.kern.nextSeq
  hrp : S.st.reportPeriod = 1

/-- A replica state reachable during a run: either busy (for some invariant
parameters) or idle. -/
def GoodState (S : RSys) : Prop :=
  (∃ C Φ tR nR tE nE cb, BusyInv C Φ tR nR tE nE cb S) ∨ IdleInv S

/-- Post-condition of draining the request queue from a state `S` satisfying
`BusyInv C Φ _ _ _ _ _ S`: all requests have been completed, the server is
idle, the clock just reached `C`, the accumulated busy time is `Φ + C`, and
the reply log has grown by one stamped entry per formerly queued request,
the last one departing exactly at `C`. -/
def Drained (C Φ : ℚ) (S T : RSys) : Prop :=
  T.st.activeRequests = [] ∧ T.st.activeTimeStarted = none ∧
  T.st.activeTime = Φ + C ∧ T.kern.now = C ∧ T.st.timeSlice = S.st.timeSlice ∧
  IdleInv T ∧
  ∃ L, T.st.completedLog = S.st.completedLog ++ L ∧ L ≠ [] ∧
    (L.map rkey).Perm (S.st.activeRequests.map rkey) ∧
    (∀ r ∈ L, ∃ d, r.departure = some d ∧ r.arrival ≤ d ∧ d ≤ C) ∧
    ∃ lr, L.getLast? = some lr ∧ lr.departure = some C

/-! ## Termination measures -/

/-- Number of dispatch steps a request with `rem` remaining time still
needs under quantum `q`. -/
def slices (q rem : ℚ) : ℕ := (Int.ceil (rem / q)).toNat

/-- Primary measure: total pending dispatch steps plus two bookkeeping steps
per queued request plus one if the pending scheduling event is a dispatch. -/
def primM (q : ℚ) (l : List RRequest) (cb : RCb) : ℕ :=
  (l.map (fun r => slices q r.remainingTime)).sum + 2 * l.length +
    (if cb = RCb.onScheduleRequests then 1 else 0)

/-- Secondary measure: report firings that can still precede the pending
scheduling event. -/
def secM (tR tE : ℚ) : ℕ :=
  2 * (Int.ceil (tE - tR)).toNat + (if tR ≤ tE then 1 else 0)

theorem slices_zero {q : ℚ} : slices q 0 = 0 := by
  simp [slices]

theorem slices_one {q rem : ℚ} (hq : 0 < q) (h0 : 0 < rem) (hle : rem ≤ q) :
    slices q rem = 1 := by
  have hc : Int.ceil (rem / q) = 1 := by
    rw [Int.ceil_eq_iff]
    constructor
    · simpa using div_pos h0 hq
    · simpa using (div_le_one hq).mpr hle
  simp [slices, hc]

theorem slices_sub {q rem : ℚ} (hq : 0 < q) (hgt : q < rem) :
    slices q rem = slices q (rem - q) + 1 := by
  have hdiv : (rem - q) / q = rem / q - 1 := by
    field_simp
  have hceil : Int.ceil ((rem - q) / q) = Int.ceil (rem / q) - 1 := by
    rw [hdiv, Int.ceil_sub_one]
  have h1 : (1 : ℚ) < rem / q := (one_lt_div hq).mpr hgt
  have h2 : (1 : ℤ) < Int.ceil (rem / q) := by
    have := lt_of_lt_of_le h1 (Int.le_ceil (rem / q))
    exact_mod_cast this
  unfold slices
  rw [hceil]
  omega

theorem secM_report {tR tE : ℚ} (h : tR ≤ tE) : secM (tR + 1) tE < secM tR tE := by
  unfold secM
  rw [if_pos h]
  by_cases h1 : tR + 1 ≤ tE
  · rw [if_pos h1]
    have hd1 : (1 : ℚ) ≤ tE - tR := by linarith
    have hz : (1 : ℤ) ≤ Int.ceil (tE - tR) := by
      have := le_trans hd1 (Int.le_ceil (tE - tR))
      exact_mod_cast this
    have he : tE - (tR + 1) = (tE - tR) - 1 := by ring
    rw [he, Int.ceil_sub_one]
    omega
  · rw [if_neg h1]
    have hd0 : tE - (tR + 1) ≤ 0 := by linarith [lt_of_not_le h1]
    have hz : Int.ceil (tE - (tR + 1)) ≤ 0 := Int.ceil_le.mpr (by exact_mod_cast hd0)
    omega

theorem sumRem_nonneg {l : List RRequest} (h : ∀ r ∈ l, 0 ≤ r.remainingTime) :
    0 ≤ sumRem l := by
  induction l with
  | nil => simp [sumRem]
  | cons a as ih =>
    have := h a (List.mem_cons_self a as)
    have hrec := ih (fun r hr => h r (List.mem_cons_of_mem a hr))
    simp only [sumRem, List.map_cons, List.sum_cons] at hrec ⊢
    linarith

theorem findMin_pair (a b : Event κ) :
    findMin [a, b] = if evBefore a b then some a else some b := rfl

theorem removeSeq_pair_left {a b : Event κ} (h : b.seqNo ≠ a.seqNo) :
    removeSeq [a, b] a.seqNo = [b] := by
  simp [removeSeq, h]

theorem removeSeq_pair_right {a b : Event κ} (h : a.seqNo ≠ b.seqNo) :
    removeSeq [a, b] b.seqNo = [a] := by
  simp [removeSeq, h]

/-! ## Step lemmas -/

/-- Effect of one dispatch step fired (or entered directly from a completion)
at the current clock, with the report event as the only other pending event:
it re-establishes the busy invariant with the same conservation constant and
busy offset, strictly decreases the primary measure, permutes the request
keys, and leaves log, latencies and configuration untouched. -/
theorem dispatch_spec (C Φ tR : ℚ) (nR : ℕ) (T : RSys) (r : RRequest) (rest : List RRequest)
    (hact : T.st.activeRequests = r :: rest)
    (hkq : T.kern.queue = [⟨tR, nR, RCb.runReportLoop⟩])
    (hq : 0 < T.st.timeSlice) (hrp : T.st.reportPeriod = 1)
    (hnR : nR < T.kern.nextSeq)
    (htR : T.kern.now ≤ tR)
    (hrem : ∀ x ∈ r :: rest, 0 ≤ x.remainingTime)
    (hdep : ∀ x ∈ r :: rest, x.departure = none)
    (harr : ∀ x ∈ r :: rest, x.arrival ≤ T.kern.now)
    (hC : T.kern.now + sumRem (r :: rest) = C)
    (hbusy : T.st.activeTimeStarted = some (T.st.activeTime - Φ) ∨
             (T.st.activeTimeStarted = none ∧ Φ = T.st.activeTime - T.kern.now)) :
    ∃ tE2 nE2 cb2,
      BusyInv C Φ tR nR tE2 nE2 cb2 (onScheduleBody T) ∧
      primM T.st.timeSlice (onScheduleBody T).st.activeRequests cb2 <
        primM T.st.timeSlice (r :: rest) RCb.onScheduleRequests ∧
      ((onScheduleBody T).st.activeRequests.map rkey).Perm ((r :: rest).map rkey) ∧
      (onScheduleBody T).st.completedLog = T.st.completedLog ∧
      (onScheduleBody T).st.latestLatencies = T.st.latestLatencies ∧
      (onScheduleBody T).st.timeSlice = T.st.timeSlice ∧
      (onScheduleBody T).kern.now = T.kern.now ∧
      (∀ x ∈ (onScheduleBody T).st.activeRequests, ∃ y ∈ r :: rest,
        rkey x = rkey y ∧ x.remainingTime ≤ y.remainingTime) := by
  have hstart : (T.st.activeTimeStarted.getD T.kern.now) = T.st.activeTime - Φ := by
    rcases hbusy with hb | ⟨hb, hphi⟩
    · rw [hb]; rfl
    · rw [hb]; simp [Option.getD]; linarith
  have hr0 : 0 ≤ r.remainingTime := hrem r (List.mem_cons_self r rest)
  by_cases hle : r.remainingTime ≤ T.st.timeSlice
  · -- the head request finishes within this slice: schedule the completion
    have hmin : min T.st.timeSlice r.remainingTime = r.remainingTime := min_eq_right hle
    have hred : onScheduleBody T =
        ⟨T.kern.add r.remainingTime RCb.onCompleted,
          { T.st with
              activeRequests := { r with remainingTime := 0 } :: rest
              activeTimeStarted := some (T.st.activeTimeStarted.getD T.kern.now) }⟩ := by
      unfold onScheduleBody
      rw [hact]
      simp only [hmin, sub_self]
      rw [if_true]
    rw [hred]
    refine ⟨T.kern.now + r.remainingTime, T.kern.nextSeq, RCb.onCompleted,
      ?_, ?_, ?_, rfl, rfl, rfl, rfl, ?_⟩
    · constructor
      · exact hq
      · exact List.cons_ne_nil _ _
      · exact Or.inr rfl
      · left
        show T.kern.queue ++ [⟨T.kern.now + r.remainingTime, T.kern.nextSeq, RCb.onCompleted⟩] = _
        rw [hkq]
        rfl
      · omega
      · show nR < T.kern.nextSeq + 1; omega
      · show T.kern.nextSeq < T.kern.nextSeq + 1; omega
      · exact htR
      · show T.kern.now ≤ T.kern.now + r.remainingTime; linarith
      · show T.kern.now + r.remainingTime + sumRem ({ r with remainingTime := 0 } :: rest) = C
        simp only [sumRem, List.map_cons, List.sum_cons] at hC ⊢
        linarith
      · intro x hx
        rcases List.mem_cons.mp hx with rfl | hx
        · exact le_refl 0
        · exact hrem x (List.mem_cons_of_mem r hx)
      · intro x hx
        rcases List.mem_cons.mp hx with rfl | hx
        · exact hdep r (List.mem_cons_self r rest)
        · exact hdep x (List.mem_cons_of_mem r hx)
      · intro x hx
        rcases List.mem_cons.mp hx with rfl | hx
        · exact harr r (List.mem_cons_self r rest)
        · exact harr x (List.mem_cons_of_mem r hx)
      · intro h2
        exact ⟨{ r with remainingTime := 0 }, rest, rfl, rfl⟩
      · left
        show some (T.st.activeTimeStarted.getD T.kern.now) = some (T.st.activeTime - Φ)
        rw [hstart]
      · exact hrp
    · show primM T.st.timeSlice ({ r with remainingTime := 0 } :: rest) RCb.onCompleted <
        primM T.st.timeSlice (r :: rest) RCb.onScheduleRequests
      have h1 : (if RCb.onCompleted = RCb.onScheduleRequests then 1 else 0) = 0 := rfl
      have h2 : (if RCb.onScheduleRequests = RCb.onScheduleRequests then 1 else 0) = 1 := rfl
      simp only [primM, List.map_cons, List.sum_cons, List.length_cons, slices_zero, h1, h2,
        if_true]
      omega
    · exact List.Perm.refl _
    · intro x hx
      rcases List.mem_cons.mp hx with rfl | hx
      · exact ⟨r, List.mem_cons_self r rest, rfl, hr0⟩
      · exact ⟨x, List.mem_cons_of_mem r hx, rfl, le_refl _⟩
  · -- the head request is preempted: round-robin and another dispatch step
    have hgt : T.st.timeSlice < r.remainingTime := lt_of_not_le hle
    have hmin : min T.st.timeSlice r.remainingTime = T.st.timeSlice := min_eq_left hgt.le
    have hne0 : r.remainingTime - T.st.timeSlice ≠ 0 := sub_ne_zero.mpr (ne_of_gt hgt)
    have hred : onScheduleBody T =
        ⟨T.kern.add T.st.timeSlice RCb.onScheduleRequests,
          { T.st with
              activeRequests := rest ++ [{ r with remainingTime := r.remainingTime - T.st.timeSlice }]
              activeTimeStarted := some (T.st.activeTimeStarted.getD T.kern.now) }⟩ := by
      unfold onScheduleBody
      rw [hact]
      simp only [hmin]
      rw [if_neg hne0]
    rw [hred]
    refine ⟨T.kern.now + T.st.timeSlice, T.kern.nextSeq, RCb.onScheduleRequests,
      ?_, ?_, ?_, rfl, rfl, rfl, rfl, ?_⟩
    · constructor
      · exact hq
      · exact fun h => by simp at h
      · exact Or.inl rfl
      · left
        show T.kern.queue ++ [⟨T.kern.now + T.st.timeSlice, T.kern.nextSeq, RCb.onScheduleRequests⟩] = _
        rw [hkq]
        rfl
      · omega
      · show nR < T.kern.nextSeq + 1; omega
      · show T.kern.nextSeq < T.kern.nextSeq + 1; omega
      · exact htR
      · show T.kern.now ≤ T.kern.now + T.st.timeSlice; linarith
      · show T.kern.now + T.st.timeSlice +
          sumRem (rest ++ [{ r with remainingTime := r.remainingTime - T.st.timeSlice }]) = C
        simp only [sumRem, List.map_cons, List.sum_cons, List.map_append, List.sum_append,
          List.map_nil, List.sum_nil] at hC ⊢
        linarith
      · intro x hx
        rcases List.mem_append.mp hx with hx | hx
        · exact hrem x (List.mem_cons_of_mem r hx)
        · rcases List.mem_singleton.mp hx with rfl
          show (0:ℚ) ≤ r.remainingTime - T.st.timeSlice
          linarith
      · intro x hx
        rcases List.mem_append.mp hx with hx | hx
        · exact hdep x (List.mem_cons_of_mem r hx)
        · rcases List.mem_singleton.mp hx with rfl
          exact hdep r (List.mem_cons_self r rest)
      · intro x hx
        rcases List.mem_append.mp hx with hx | hx
        · exact harr x (List.mem_cons_of_mem r hx)
        · rcases List.mem_singleton.mp hx with rfl
          exact harr r (List.mem_cons_self r rest)
      · intro h2
        exact absurd h2 (by simp)
      · left
        show some (T.st.activeTimeStarted.getD T.kern.now) = some (T.st.activeTime - Φ)
        rw [hstart]
      · exact hrp
    · show primM T.st.timeSlice
          (rest ++ [{ r with remainingTime := r.remainingTime - T.st.timeSlice }])
          RCb.onScheduleRequests <
        primM T.st.timeSlice (r :: rest) RCb.onScheduleRequests
      have hsl : slices T.st.timeSlice r.remainingTime =
          slices T.st.timeSlice (r.remainingTime - T.st.timeSlice) + 1 := slices_sub hq hgt
      simp only [primM, List.map_cons, List.sum_cons, List.map_append, List.sum_append,
        List.map_nil, List.sum_nil, List.length_append, List.length_cons, List.length_nil]
      omega
    · have hp : (rest ++ [{ r with remainingTime := r.remainingTime - T.st.timeSlice }]).Perm
          ({ r with remainingTime := r.remainingTime - T.st.timeSlice } :: rest) :=
        List.perm_append_singleton _ _
      have hp2 := hp.map rkey
      simp only [List.map_cons] at hp2 ⊢
      exact hp2
    · intro x hx
      rcases List.mem_append.mp hx with hx | hx
      · exact ⟨x, List.mem_cons_of_mem r hx, rfl, le_refl _⟩
      · rcases List.mem_singleton.mp hx with rfl
        refine ⟨r, List.mem_cons_self r rest, rfl, ?_⟩
        show r.remainingTime - T.st.timeSlice ≤ r.remainingTime
        linarith

/-- Effect of the completion step fired at the current clock (the head
request has exactly zero remaining time): the reply is emitted and the
latency recorded; if the queue is then empty the replica is idle with the
full busy time accrued, otherwise the dispatch step is re-entered directly
and the busy invariant resumes with a strictly smaller primary measure. -/
theorem completion_spec (C Φ tR : ℚ) (nR : ℕ) (T : RSys) (r : RRequest) (rest : List RRequest)
    (hact : T.st.activeRequests = r :: rest)
    (hr0 : r.remainingTime = 0)
    (hkq : T.kern.queue = [⟨tR, nR, RCb.runReportLoop⟩])
    (hq : 0 < T.st.timeSlice) (hrp : T.st.reportPeriod = 1)
    (hnR : nR < T.kern.nextSeq)
    (htR : T.kern.now ≤ tR)
    (hrem : ∀ x ∈ r :: rest, 0 ≤ x.remainingTime)
    (hdep : ∀ x ∈ r :: rest, x.departure = none)
    (harr : ∀ x ∈ r :: rest, x.arrival ≤ T.kern.now)
    (hC : T.kern.now + sumRem (r :: rest) = C)
    (hbusy : T.st.activeTimeStarted = some (T.st.activeTime - Φ)) :
    (onCompletedBody T).st.completedLog =
      T.st.completedLog ++ [{ r with departure := some T.kern.now }] ∧
    (onCompletedBody T).st.latestLatencies =
      T.st.latestLatencies ++ [T.kern.now - r.arrival] ∧
    (onCompletedBody T).st.timeSlice = T.st.timeSlice ∧
    r.arrival ≤ T.kern.now ∧ T.kern.now ≤ C ∧
    (rkey { r with departure := some T.kern.now } ::
        (onCompletedBody T).st.activeRequests.map rkey).Perm ((r :: rest).map rkey) ∧
    ((rest = [] ∧ (onCompletedBody T).st.activeRequests = [] ∧
       IdleInv (onCompletedBody T) ∧
       (onCompletedBody T).st.activeTime = Φ + C ∧
       (onCompletedBody T).kern.now = C ∧
       T.kern.now = C) ∨
     (rest ≠ [] ∧ ∃ tE2 nE2 cb2,
        BusyInv C Φ tR nR tE2 nE2 cb2 (onCompletedBody T) ∧
        primM T.st.timeSlice (onCompletedBody T).st.activeRequests cb2 <
          primM T.st.timeSlice (r :: rest) RCb.onCompleted ∧
        (∀ x ∈ (onCompletedBody T).st.activeRequests, ∃ y ∈ r :: rest,
          rkey x = rkey y ∧ x.remainingTime ≤ y.remainingTime))) := by
  have hsum0 : sumRem (r :: rest) = sumRem rest := by
    simp [sumRem, hr0]
  have hsumnn : 0 ≤ sumRem rest :=
    sumRem_nonneg (fun x hx => hrem x (List.mem_cons_of_mem r hx))
  have hnowC : T.kern.now ≤ C := by
    rw [← hC, hsum0]; linarith
  have hred : onCompletedBody T =
      (if rest = [] then id else onScheduleBody)
        ⟨T.kern,
          { T.st with
              activeTime := T.st.activeTime + (T.kern.now - (T.st.activeTime - Φ))
              activeTimeStarted := none
              activeRequests := rest
              latestLatencies := T.st.latestLatencies ++ [T.kern.now - r.arrival]
              completedLog := T.st.completedLog ++
                [{ r with departure := some T.kern.now }] }⟩ := by
    unfold onCompletedBody
    rw [hbusy, hact]
    simp only []
    by_cases hrest : rest = []
    · rw [if_pos hrest, if_pos hrest]; rfl
    · rw [if_neg hrest, if_neg hrest]
  by_cases hrest : rest = []
  · subst hrest
    rw [hred, if_pos rfl]
    have hCeq : T.kern.now = C := by
      rw [← hC]; simp [sumRem, hr0]
    refine ⟨rfl, rfl, rfl, harr r (List.mem_cons_self r []), hnowC, ?_, Or.inl ?_⟩
    · exact List.Perm.refl _
    · refine ⟨rfl, rfl, ?_, ?_, ?_, ?_⟩
      · constructor
        · exact hq
        · rfl
        · rfl
        · exact ⟨tR, nR, hkq, htR, hnR⟩
        · exact hrp
      · show T.st.activeTime + (T.kern.now - (T.st.activeTime - Φ)) = Φ + C
        rw [hCeq]; ring
      · exact hCeq
      · exact hCeq
  · obtain ⟨r1, rest1, hr1⟩ := List.exists_cons_of_ne_nil hrest
    rw [hred, if_neg hrest]
    set Tb : RSys :=
      ⟨T.kern,
        { T.st with
            activeTime := T.st.activeTime + (T.kern.now - (T.st.activeTime - Φ))
            activeTimeStarted := none
            activeRequests := rest
            latestLatencies := T.st.latestLatencies ++ [T.kern.now - r.arrival]
            completedLog := T.st.completedLog ++
              [{ r with departure := some T.kern.now }] }⟩ with hTb
    have hdisp := dispatch_spec C Φ tR nR Tb r1 rest1
      (by rw [hTb]; exact hr1)
      hkq hq hrp hnR htR
      (by rw [← hr1]; exact fun x hx => hrem x (List.mem_cons_of_mem r hx))
      (by rw [← hr1]; exact fun x hx => hdep x (List.mem_cons_of_mem r hx))
      (by rw [← hr1]; exact fun x hx => harr x (List.mem_cons_of_mem r hx))
      (by rw [← hr1]; show T.kern.now + sumRem rest = C; rw [← hsum0]; exact hC)
      (Or.inr ⟨rfl, by show Φ = T.st.activeTime + (T.kern.now - (T.st.activeTime - Φ)) - T.kern.now; ring⟩)
    obtain ⟨tE2, nE2, cb2, hInv2, hprim2, hperm2, hlog2, hlat2, hts2, hnow2, hmono2⟩ := hdisp
    refine ⟨?_, ?_, ?_, harr r (List.mem_cons_self r rest), hnowC, ?_, Or.inr ?_⟩
    · rw [hlog2]
    · rw [hlat2]
    · rw [hts2]
    · rw [← hr1] at hperm2
      refine List.Perm.trans (List.Perm.cons _ hperm2) ?_
      exact List.Perm.refl _
    · refine ⟨hrest, tE2, nE2, cb2, hInv2, ?_, ?_⟩
      · refine lt_of_lt_of_le hprim2 ?_
        rw [← hr1]
        have h1 : (if RCb.onCompleted = RCb.onScheduleRequests then 1 else 0) = 0 := rfl
        have h2 : (if RCb.onScheduleRequests = RCb.onScheduleRequests then 1 else 0) = 1 := rfl
        simp only [primM, List.map_cons, List.sum_cons, List.length_cons, h1, h2, hr0,
          slices_zero, if_true]
        omega
      · intro x hx
        obtain ⟨y, hy, hk, hr⟩ := hmono2 x hx
        rw [← hr1] at hy
        exact ⟨y, List.mem_cons_of_mem r hy, hk, hr⟩

/-- Effect of the periodic report callback fired at the current clock while
the replica is busy, with the scheduling event as the only other pending
event: the busy invariant is re-established with the report event re-armed
one period later, and the scheduling state is untouched. -/
theorem report_spec (C Φ tE : ℚ) (nE : ℕ) (cb : RCb) (T : RSys)
    (hkq : T.kern.queue = [⟨tE, nE, cb⟩])
    (hcb : cb = RCb.onScheduleRequests ∨ cb = RCb.onCompleted)
    (hne : T.st.activeRequests ≠ [])
    (hq : 0 < T.st.timeSlice) (hrp : T.st.reportPeriod = 1)
    (hnE : nE < T.kern.nextSeq)
    (htE : T.kern.now ≤ tE)
    (hcons : tE + sumRem T.st.activeRequests = C)
    (hrem : ∀ x ∈ T.st.activeRequests, 0 ≤ x.remainingTime)
    (hdep : ∀ x ∈ T.st.activeRequests, x.departure = none)
    (harr : ∀ x ∈ T.st.activeRequests, x.arrival ≤ T.kern.now)
    (hcompl : cb = RCb.onCompleted →
      ∃ r rest, T.st.activeRequests = r :: rest ∧ r.remainingTime = 0)
    (hbusy : T.st.activeTimeStarted = some (T.st.activeTime - Φ) ∨
             (T.st.activeTimeStarted = none ∧ cb = RCb.onScheduleRequests ∧
               Φ = T.st.activeTime - tE)) :
    BusyInv C Φ (T.kern.now + 1) T.kern.nextSeq tE nE cb (runReportLoopBody T) ∧
    (runReportLoopBody T).st.activeRequests = T.st.activeRequests ∧
    (runReportLoopBody T).st.completedLog = T.st.completedLog ∧
    (runReportLoopBody T).st.timeSlice = T.st.timeSlice ∧
    (runReportLoopBody T).kern.now = T.kern.now := by
  have hred : runReportLoopBody T =
      ⟨T.kern.add 1 RCb.runReportLoop,
        { T.st with
            lastActiveTime := T.st.getActiveTime T.kern.now
            latestLatencies := [] }⟩ := by
    unfold runReportLoopBody
    rw [hrp]
  rw [hred]
  refine ⟨?_, rfl, rfl, rfl, rfl⟩
  constructor
  · exact hq
  · exact hne
  · exact hcb
  · right
    show T.kern.queue ++ [⟨T.kern.now + 1, T.kern.nextSeq, RCb.runReportLoop⟩] = _
    rw [hkq]
    rfl
  · omega
  · show T.kern.nextSeq < T.kern.nextSeq + 1
    omega
  · show nE < T.kern.nextSeq + 1
    omega
  · show T.kern.now ≤ T.kern.now + 1
    linarith
  · exact htE
  · exact hcons
  · exact hrem
  · exact hdep
  · exact harr
  · exact hcompl
  · exact hbusy
  · exact hrp

/-- From a busy state, `kstep` fires either the scheduling event (when it is
not after the report event) or the report event (when it is not after the
scheduling event), with the other event remaining queued. -/
theorem busy_kstep (C Φ tR : ℚ) (nR : ℕ) (tE : ℚ) (nE : ℕ) (cb : RCb) (S : RSys)
    (hI : BusyInv C Φ tR nR tE nE cb S) :
    (tE ≤ tR ∧ kstep rhandler none S =
        some (rhandler cb ⟨⟨tE, [⟨tR, nR, RCb.runReportLoop⟩], S.kern.nextSeq⟩, S.st⟩)) ∨
    (tR ≤ tE ∧ kstep rhandler none S =
        some (runReportLoopBody ⟨⟨tR, [⟨tE, nE, cb⟩], S.kern.nextSeq⟩, S.st⟩)) := by
  have hseq := hI.hseq
  have hrm1 : removeSeq [(⟨tR, nR, RCb.runReportLoop⟩ : Event RCb), ⟨tE, nE, cb⟩] nR =
      [⟨tE, nE, cb⟩] := removeSeq_pair_left (Ne.symm hseq)
  have hrm2 : removeSeq [(⟨tR, nR, RCb.runReportLoop⟩ : Event RCb), ⟨tE, nE, cb⟩] nE =
      [⟨tR, nR, RCb.runReportLoop⟩] := removeSeq_pair_right hseq
  have hrm3 : removeSeq [(⟨tE, nE, cb⟩ : Event RCb), ⟨tR, nR, RCb.runReportLoop⟩] nE =
      [⟨tR, nR, RCb.runReportLoop⟩] := removeSeq_pair_left hseq
  have hrm4 : removeSeq [(⟨tE, nE, cb⟩ : Event RCb), ⟨tR, nR, RCb.runReportLoop⟩] nR =
      [⟨tE, nE, cb⟩] := removeSeq_pair_right (Ne.symm hseq)
  rcases hI.hqueue with hq1 | hq1
  · unfold kstep
    rw [hq1, findMin_pair]
    cases hb : evBefore (⟨tR, nR, RCb.runReportLoop⟩ : Event RCb) ⟨tE, nE, cb⟩ with
    | true =>
      right
      refine ⟨evBefore_le hb, ?_⟩
      simp only [if_true]
      rw [hrm1]
      rfl
    | false =>
      left
      refine ⟨evBefore_false_le hb, ?_⟩
      simp only [Bool.false_eq_true, if_false]
      rw [hrm2]
  · unfold kstep
    rw [hq1, findMin_pair]
    cases hb : evBefore (⟨tE, nE, cb⟩ : Event RCb) ⟨tR, nR, RCb.runReportLoop⟩ with
    | true =>
      left
      refine ⟨evBefore_le hb, ?_⟩
      simp only [if_true]
      rw [hrm3]
    | false =>
      right
      refine ⟨evBefore_false_le hb, ?_⟩
      simp only [Bool.false_eq_true, if_false]
      rw [hrm4]
      rfl

/-- One `kstep` from a busy state: either the report fires (scheduling state
untouched, report re-armed), or the scheduling event fires — re-establishing
the busy invariant with a strictly smaller primary measure, or finishing the
last request and leaving the replica idle.  Completed requests are appended
to the reply log stamped with their departure time, and their latency
samples are appended to the latency window. -/
theorem busy_step_cases (C Φ tR : ℚ) (nR : ℕ) (tE : ℚ) (nE : ℕ) (cb : RCb) (S : RSys)
    (hI : BusyInv C Φ tR nR tE nE cb S) :
    ∃ S₂, kstep rhandler none S = some S₂ ∧
      S₂.st.timeSlice = S.st.timeSlice ∧
      ((BusyInv C Φ (tR + 1) S.kern.nextSeq tE nE cb S₂ ∧
        S₂.st.activeRequests = S.st.activeRequests ∧
        S₂.st.completedLog = S.st.completedLog ∧
        tR ≤ tE) ∨
       (∃ dL,
          (dL = [] ∨ ∃ rc, dL = [rc]) ∧
          S₂.st.completedLog = S.st.completedLog ++ dL ∧
          S₂.st.latestLatencies = S.st.latestLatencies ++
            dL.map (fun x => x.departure.getD 0 - x.arrival) ∧
          ((dL.map rkey) ++ S₂.st.activeRequests.map rkey).Perm
            (S.st.activeRequests.map rkey) ∧
          (∀ x ∈ dL, ∃ d, x.departure = some d ∧ x.arrival ≤ d ∧ d ≤ C) ∧
          (∀ x ∈ S₂.st.activeRequests, ∃ y ∈ S.st.activeRequests,
            rkey x = rkey y ∧ x.remainingTime ≤ y.remainingTime) ∧
          ((∃ tE2 nE2 cb2,
              BusyInv C Φ tR nR tE2 nE2 cb2 S₂ ∧
              primM S.st.timeSlice S₂.st.activeRequests cb2 <
                primM S.st.timeSlice S.st.activeRequests cb) ∨
           (S₂.st.activeRequests = [] ∧ IdleInv S₂ ∧
            S₂.st.activeTime = Φ + C ∧ S₂.kern.now = C ∧
            S₂.st.activeTimeStarted = none ∧
            ∃ lr, dL.getLast? = some lr ∧ lr.departure = some C)))) := by
  rcases busy_kstep C Φ tR nR tE nE cb S hI with ⟨hle, hks⟩ | ⟨hle, hks⟩
  · -- the scheduling event fires at time tE
    set T : RSys := ⟨⟨tE, [⟨tR, nR, RCb.runReportLoop⟩], S.kern.nextSeq⟩, S.st⟩ with hT
    rcases hI.hcb with hcbS | hcbS
    · -- dispatch step
      obtain ⟨r, rest, hact⟩ := List.exists_cons_of_ne_nil hI.hne
      have hdisp := dispatch_spec C Φ tR nR T r rest
        (by show S.st.activeRequests = r :: rest; exact hact)
        rfl hI.hq hI.hrp hI.hnR
        (by show tE ≤ tR; exact hle)
        (by rw [← hact]; exact hI.hrem)
        (by rw [← hact]; exact hI.hdep)
        (by rw [← hact]
            intro x hx
            exact le_trans (hI.harr x hx) hI.hnowE)
        (by show tE + sumRem (r :: rest) = C; rw [← hact]; exact hI.hcons)
        (by rcases hI.hbusy with hb | ⟨hb, hcb2, hphi⟩
            · exact Or.inl hb
            · exact Or.inr ⟨hb, hphi⟩)
      obtain ⟨tE2, nE2, cb2, hInv2, hprim2, hperm2, hlog2, hlat2, hts2, hnow2, hmono2⟩ := hdisp
      refine ⟨onScheduleBody T, ?_, hts2, Or.inr ⟨[], Or.inl rfl, ?_, ?_, ?_, ?_, ?_, Or.inl ?_⟩⟩
      · rw [hks, hcbS]; rfl
      · rw [hlog2, List.append_nil]
      · rw [hlat2, List.map_nil, List.append_nil]
      · rw [List.map_nil, List.nil_append, hact]
        exact hperm2
      · intro x hx; simp at hx
      · intro x hx
        obtain ⟨y, hy, hk, hr⟩ := hmono2 x hx
        exact ⟨y, hact ▸ hy, hk, hr⟩
      · refine ⟨tE2, nE2, cb2, hInv2, ?_⟩
        rw [hact, hcbS]
        exact hprim2
    · -- completion step
      obtain ⟨r, rest, hact, hr0⟩ := hI.hcompl hcbS
      have hcomp := completion_spec C Φ tR nR T r rest
        (by show S.st.activeRequests = r :: rest; exact hact)
        hr0 rfl hI.hq hI.hrp hI.hnR
        (by show tE ≤ tR; exact hle)
        (by rw [← hact]; exact hI.hrem)
        (by rw [← hact]; exact hI.hdep)
        (by rw [← hact]
            intro x hx
            exact le_trans (hI.harr x hx) hI.hnowE)
        (by show tE + sumRem (r :: rest) = C; rw [← hact]; exact hI.hcons)
        (by rcases hI.hbusy with hb | ⟨hb, hcb2, hphi⟩
            · exact hb
            · rw [hcbS] at hcb2; cases hcb2)
      obtain ⟨hlog2, hlat2, hts2, harr2, hnowC2, hperm2, hcases⟩ := hcomp
      refine ⟨onCompletedBody T, ?_, hts2,
        Or.inr ⟨[{ r with departure := some tE }], Or.inr ⟨_, rfl⟩, ?_, ?_, ?_, ?_, ?_, ?_⟩⟩
      · rw [hks, hcbS]; rfl
      · exact hlog2
      · rw [hlat2]; rfl
      · rw [hact]
        exact hperm2
      · intro x hx
        rcases List.mem_singleton.mp hx with rfl
        exact ⟨tE, rfl, harr2, hnowC2⟩
      · intro x hx
        rcases hcases with ⟨hrest, hempty, hmore⟩ | ⟨hrest, tE2, nE2, cb2, hInv2, hprim2, hmono2⟩
        · rw [hempty] at hx; simp at hx
        · obtain ⟨y, hy, hk, hr⟩ := hmono2 x hx
          exact ⟨y, hact ▸ hy, hk, hr⟩
      · rcases hcases with ⟨hrest, hempty, hIdle, hAT, hnowC, hnowT⟩ |
          ⟨hrest, tE2, nE2, cb2, hInv2, hprim2, hmono2⟩
        · refine Or.inr ⟨hempty, hIdle, hAT, hnowC, hIdle.hstarted,
            ⟨{ r with departure := some tE }, rfl, ?_⟩⟩
          exact congrArg some hnowT
        · refine Or.inl ⟨tE2, nE2, cb2, hInv2, ?_⟩
          rw [hact, hcbS]
          exact hprim2
  · -- the report event fires at time tR
    set T : RSys := ⟨⟨tR, [⟨tE, nE, cb⟩], S.kern.nextSeq⟩, S.st⟩ with hT
    have hrep := report_spec C Φ tE nE cb T
      rfl hI.hcb hI.hne hI.hq hI.hrp hI.hnE
      (by show tR ≤ tE; exact hle)
      hI.hcons hI.hrem hI.hdep
      (by intro x hx
          exact le_trans (hI.harr x hx) hI.hnowR)
      hI.hcompl
      (by rcases hI.hbusy with hb | hb
          · exact Or.inl hb
          · exact Or.inr hb)
    obtain ⟨hInv2, hact2, hlog2, hts2, hnow2⟩ := hrep
    exact ⟨runReportLoopBody T, hks, hts2, Or.inl ⟨hInv2, hact2, hlog2, hle⟩⟩

/-- Main run lemma: from any busy state the run eventually completes every
queued request, reaching the drained post-condition.  Nested strong
induction: the primary measure strictly decreases on every firing of the
scheduling event, and at fixed primary measure the secondary measure
strictly decreases on every firing of the report event. -/
theorem drain (p : ℕ) :
    ∀ (s : ℕ) (C Φ tR : ℚ) (nR : ℕ) (tE : ℚ) (nE : ℕ) (cb : RCb) (S : RSys),
      BusyInv C Φ tR nR tE nE cb S →
      primM S.st.timeSlice S.st.activeRequests cb = p →
      secM tR tE = s →
      ∃ n, Drained C Φ S (runFuel rhandler none n S) := by
  induction p using Nat.strong_induction_on with
  | _ p ihp =>
  intro s
  induction s using Nat.strong_induction_on with
  | _ s ihs =>
  intro C Φ tR nR tE nE cb S hI hp hs
  obtain ⟨S₂, hks, hts2, hcase⟩ := busy_step_cases C Φ tR nR tE nE cb S hI
  rcases hcase with ⟨hInv2, hact2, hlog2, hle⟩ |
    ⟨dL, hdLshape, hlog2, hlat2, hperm2, hdL, hmono2, hrest⟩
  · -- report fired: the secondary measure decreases at fixed primary measure
    have hp2 : primM S₂.st.timeSlice S₂.st.activeRequests cb = p := by
      rw [hts2, hact2]; exact hp
    have hs2 : secM (tR + 1) tE < s := by rw [← hs]; exact secM_report hle
    obtain ⟨n, hD⟩ := ihs _ hs2 C Φ (tR + 1) S.kern.nextSeq tE nE cb S₂ hInv2 hp2 rfl
    refine ⟨n + 1, ?_⟩
    rw [kstep_some_runFuel hks n]
    obtain ⟨hA1, hA2, hA3, hA4, hA5, hA6, L, hL1, hL2, hL3, hL4, lr, hlr1, hlr2⟩ := hD
    exact ⟨hA1, hA2, hA3, hA4, by rw [hA5, hts2], hA6,
      L, by rw [hL1, hlog2], hL2, by rw [← hact2]; exact hL3, hL4, lr, hlr1, hlr2⟩
  · rcases hrest with ⟨tE2, nE2, cb2, hInv2, hprim2⟩ |
      ⟨hempty, hIdle, hAT, hnow, hstart, lr, hlr1, hlr2⟩
    · -- scheduling event fired, queue still non-empty: primary measure decreases
      have hp2 : primM S₂.st.timeSlice S₂.st.activeRequests cb2 < p := by
        rw [hts2, ← hp]; exact hprim2
      obtain ⟨n, hD⟩ := ihp _ hp2 (secM tR tE2) C Φ tR nR tE2 nE2 cb2 S₂ hInv2 rfl rfl
      refine ⟨n + 1, ?_⟩
      rw [kstep_some_runFuel hks n]
      obtain ⟨hA1, hA2, hA3, hA4, hA5, hA6, L, hL1, hL2, hL3, hL4, lr, hlr1, hlr2⟩ := hD
      refine ⟨hA1, hA2, hA3, hA4, by rw [hA5, hts2], hA6,
        dL ++ L, ?_, ?_, ?_, ?_, lr, ?_, hlr2⟩
      · rw [hL1, hlog2, List.append_assoc]
      · intro h
        exact hL2 (List.append_eq_nil.mp h).2
      · rw [List.map_append]
        exact List.Perm.trans (List.Perm.append_left (dL.map rkey) hL3) hperm2
      · intro x hx
        rcases List.mem_append.mp hx with hx | hx
        · exact hdL x hx
        · exact hL4 x hx
      · rw [List.getLast?_append, hlr1]
        rfl
    · -- final completion: done after this one step
      refine ⟨1, ?_⟩
      rw [kstep_some_runFuel hks 0]
      have hdLne : dL ≠ [] := by
        intro h
        rw [h] at hlr1
        cases hlr1
      have hperm3 : (dL.map rkey).Perm (S.st.activeRequests.map rkey) := by
        rw [hempty] at hperm2
        simpa using hperm2
      exact ⟨hempty, hstart, hAT, hnow, hts2, hIdle, dL, hlog2, hdLne, hperm3, hdL,
        lr, hlr1, hlr2⟩

/-- One `kstep` from an idle state: the report event fires and re-arms
itself; nothing else changes. -/
theorem idle_step (S : RSys) (hI : IdleInv S) :
    ∃ S₂, kstep rhandler none S = some S₂ ∧ IdleInv S₂ ∧
      S₂.st.activeRequests = S.st.activeRequests ∧
      S₂.st.completedLog = S.st.completedLog ∧
      S₂.st.timeSlice = S.st.timeSlice := by
  obtain ⟨tR, nR, hq, hnow, hnR⟩ := hI.hqueue
  have hrm : removeSeq [(⟨tR, nR, RCb.runReportLoop⟩ : Event RCb)] nR = [] := by
    simp [removeSeq]
  have hks : kstep rhandler none S =
      some (runReportLoopBody ⟨⟨tR, [], S.kern.nextSeq⟩, S.st⟩) := by
    unfold kstep
    rw [hq]
    show some (rhandler RCb.runReportLoop
      ⟨⟨tR, removeSeq [⟨tR, nR, RCb.runReportLoop⟩] nR, S.kern.nextSeq⟩, S.st⟩) = _
    rw [hrm]
    rfl
  have hred : runReportLoopBody (⟨⟨tR, [], S.kern.nextSeq⟩, S.st⟩ : RSys) =
      ⟨⟨tR, [⟨tR + 1, S.kern.nextSeq, RCb.runReportLoop⟩], S.kern.nextSeq + 1⟩,
        { S.st with
            lastActiveTime := S.st.getActiveTime tR
            latestLatencies := [] }⟩ := by
    unfold runReportLoopBody SimulatorKernel.add
    rw [hI.hrp]
    rfl
  refine ⟨_, hks, ?_, ?_, ?_, ?_⟩
  · rw [hred]
    exact ⟨hI.hq, hI.hempty, hI.hstarted,
      ⟨tR + 1, S.kern.nextSeq, rfl, by show tR ≤ tR + 1; linarith,
        by show S.kern.nextSeq < S.kern.nextSeq + 1; omega⟩, hI.hrp⟩
  · rw [hred]
  · rw [hred]
  · rw [hred]

/-- Running any number of steps from an idle state leaves the request queue
and the reply log unchanged (only report events fire). -/
theorem idle_run (m : ℕ) : ∀ (S : RSys), IdleInv S →
    IdleInv (runFuel rhandler none m S) ∧
    (runFuel rhandler none m S).st.activeRequests = S.st.activeRequests ∧
    (runFuel rhandler none m S).st.completedLog = S.st.completedLog := by
  induction m with
  | zero => intro S hI; exact ⟨hI, rfl, rfl⟩
  | succ m ih =>
    intro S hI
    obtain ⟨S₂, hks, hI2, hact2, hlog2, hts2⟩ := idle_step S hI
    rw [kstep_some_runFuel hks m]
    obtain ⟨hA, hB, hC2⟩ := ih S₂ hI2
    exact ⟨hA, by rw [hB, hact2], by rw [hC2, hlog2]⟩

/-! ## Reply uniqueness -/

theorem countP_id_nodup {l : List RRequest} {r : RRequest}
    (hnd : (l.map RRequest.requestId).Nodup) (hr : r ∈ l) :
    l.countP (fun x => decide (x.requestId = r.requestId)) = 1 := by
  induction l with
  | nil => simp at hr
  | cons a as ih =>
    rw [List.map_cons, List.nodup_cons] at hnd
    rcases List.mem_cons.mp hr with rfl | hr2
    · rw [List.countP_cons]
      have h0 : as.countP (fun x => decide (x.requestId = r.requestId)) = 0 := by
        rw [List.countP_eq_zero]
        intro x hx hpx
        apply hnd.1
        rw [← of_decide_eq_true hpx]
        exact List.mem_map_of_mem RRequest.requestId hx
      simp [h0]
    · rw [List.countP_cons]
      have hane : a.requestId ≠ r.requestId := by
        intro he
        apply hnd.1
        rw [he]
        exact List.mem_map_of_mem RRequest.requestId hr2
      rw [ih hnd.2 hr2]
      simp [hane]

theorem eq_of_id_nodup {l : List RRequest} (hnd : (l.map RRequest.requestId).Nodup)
    {a b : RRequest} (ha : a ∈ l) (hb : b ∈ l) (hid : a.requestId = b.requestId) : a = b := by
  induction l with
  | nil => simp at ha
  | cons c cs ih =>
    rw [List.map_cons, List.nodup_cons] at hnd
    rcases List.mem_cons.mp ha with rfl | ha2
    · rcases List.mem_cons.mp hb with rfl | hb2
      · rfl
      · exact absurd (hid ▸ List.mem_map_of_mem RRequest.requestId hb2) hnd.1
    · rcases List.mem_cons.mp hb with rfl | hb2
      · exact absurd (hid ▸ List.mem_map_of_mem RRequest.requestId ha2) hnd.1
      · exact ih hnd.2 ha2 hb2

/-- From any busy state with fresh log and distinct request ids, every queued
request eventually receives exactly one reply (one log entry with its id),
carrying its own `withOptional` flag and a departure stamp between its
arrival time and the conservation constant `C`; the log entry then persists
unchanged for the rest of the run. -/
theorem eventual_reply (C Φ tR : ℚ) (nR : ℕ) (tE : ℚ) (nE : ℕ) (cb : RCb) (S : RSys)
    (hI : BusyInv C Φ tR nR tE nE cb S)
    (hlog0 : S.st.completedLog = [])
    (hnd : (S.st.activeRequests.map RRequest.requestId).Nodup) :
    ∀ r ∈ S.st.activeRequests,
      ∃ n r2 d, (∀ m, n ≤ m →
          ((runFuel rhandler none m S).st.completedLog.filter
            (fun x => decide (x.requestId = r.requestId))) = [r2]) ∧
        r2.requestId = r.requestId ∧
        r2.withOptional = r.withOptional ∧ r2.arrival = r.arrival ∧
        r2.departure = some d ∧ r.arrival ≤ d ∧ d ≤ C := by
  intro r hr
  obtain ⟨n, hD⟩ := drain _ _ C Φ tR nR tE nE cb S hI rfl rfl
  obtain ⟨hA1, hA2, hA3, hA4, hA5, hA6, L, hL1, hL2, hL3, hL4, lr, hlr1, hlr2⟩ := hD
  set T := runFuel rhandler none n S with hT
  have hlogT : T.st.completedLog = L := by rw [hL1, hlog0, List.nil_append]
  -- inside L there is exactly one entry with r's id
  have hcount : L.countP (fun x => decide (x.requestId = r.requestId)) = 1 := by
    have h1 : L.countP (fun x => decide (x.requestId = r.requestId)) =
        (L.map rkey).countP (fun t => decide (t.1 = r.requestId)) := by
      rw [List.countP_map]
      rfl
    have h2 : (L.map rkey).countP (fun t => decide (t.1 = r.requestId)) =
        (S.st.activeRequests.map rkey).countP (fun t => decide (t.1 = r.requestId)) :=
      hL3.countP_eq _
    have h3 : (S.st.activeRequests.map rkey).countP (fun t => decide (t.1 = r.requestId)) =
        S.st.activeRequests.countP (fun x => decide (x.requestId = r.requestId)) := by
      rw [List.countP_map]
      rfl
    rw [h1, h2, h3]
    exact countP_id_nodup hnd hr
  have hflen : (L.filter (fun x => decide (x.requestId = r.requestId))).length = 1 := by
    rw [← List.countP_eq_length_filter]
    exact hcount
  obtain ⟨r2, hr2⟩ : ∃ r2, L.filter (fun x => decide (x.requestId = r.requestId)) = [r2] := by
    cases hc : L.filter (fun x => decide (x.requestId = r.requestId)) with
    | nil => rw [hc] at hflen; simp at hflen
    | cons x xs =>
      rw [hc] at hflen
      simp only [List.length_cons] at hflen
      have : xs = [] := List.length_eq_zero.mp (by omega)
      exact ⟨x, by rw [this]⟩
  have hr2mem : r2 ∈ L.filter (fun x => decide (x.requestId = r.requestId)) := by
    rw [hr2]
    exact List.mem_singleton.mpr rfl
  have hr2L : r2 ∈ L := (List.mem_filter.mp hr2mem).1
  have hr2id : r2.requestId = r.requestId :=
    of_decide_eq_true (List.mem_filter.mp hr2mem).2
  -- match r2 back to r through the permutation of keys
  have hkey : rkey r2 = rkey r := by
    have hmem : rkey r2 ∈ S.st.activeRequests.map rkey :=
      hL3.mem_iff.mp (List.mem_map_of_mem rkey hr2L)
    obtain ⟨y, hy, hkeq⟩ := List.mem_map.mp hmem
    have hyid : y.requestId = r.requestId := by
      have : (rkey y).1 = (rkey r2).1 := by rw [hkeq]
      simpa [rkey] using this.trans hr2id
    rw [← hkeq]
    rw [eq_of_id_nodup hnd hy hr hyid]
  have hflag : r2.withOptional = r.withOptional := by
    have := congrArg (fun t => t.2.1) hkey
    simpa [rkey] using this
  have harr : r2.arrival = r.arrival := by
    have := congrArg (fun t => t.2.2) hkey
    simpa [rkey] using this
  obtain ⟨d, hdep, hd1, hd2⟩ := hL4 r2 hr2L
  refine ⟨n, r2, d, ?_, hr2id, hflag, harr, hdep, by rw [← harr]; exact hd1, hd2⟩
  intro m hm
  have hsplit : runFuel rhandler none m S = runFuel rhandler none (m - n) T := by
    rw [hT, ← runFuel_add]
    congr 1
    omega
  rw [hsplit, (idle_run (m - n) T hA6).2.2, hlogT, hr2]

/-! ## The request operation -/

/-- Scheduling callbacks (dispatch and completion steps), as opposed to the
periodic report callback. -/
def isSchedCb : RCb → Bool
  | RCb.runReportLoop => false
  | _ => true

/-- `request` schedules the dispatch step (with delay 0) if and only if the
request queue was empty before the new request is appended; otherwise the
kernel is untouched. -/
theorem request_queue_effect (S : RSys) (i : ℕ) (hd : List (String × Bool)) :
    (Replica.request S i hd).kern.queue = S.kern.queue ++
      (if S.st.activeRequests = [] then
        [⟨S.kern.now, S.kern.nextSeq, RCb.onScheduleRequests⟩] else []) ∧
    (Replica.request S i hd).st.activeRequests = S.st.activeRequests ++
      [⟨i, (hd.lookup "withOptional").getD false, S.kern.now, none,
        (S.st.drawServiceTime ((hd.lookup "withOptional").getD false)).1⟩] := by
  constructor
  · unfold Replica.request
    by_cases he : S.st.activeRequests = []
    · rw [if_pos he, if_pos he]
      show S.kern.queue ++ [⟨S.kern.now + 0, S.kern.nextSeq, RCb.onScheduleRequests⟩] = _
      rw [add_zero]
    · rw [if_neg he, if_neg he, List.append_nil]
  · rfl

/-- `request` preserves the reachable-state invariant. -/
theorem request_good (S : RSys) (i : ℕ) (hd : List (String × Bool))
    (hG : GoodState S) : GoodState (Replica.request S i hd) := by
  set w := (hd.lookup "withOptional").getD false with hw
  have hd1 : 0 ≤ (S.st.drawServiceTime w).1 := le_max_right _ _
  rcases hG with ⟨C, Φ, tR, nR, tE, nE, cb, hI⟩ | hI
  · -- busy: the queue was non-empty, no event is added
    left
    have hredk : (Replica.request S i hd).kern = S.kern := by
      unfold Replica.request
      rw [if_neg hI.hne]
    have hredst : (Replica.request S i hd).st.activeRequests =
        S.st.activeRequests ++ [⟨i, w, S.kern.now, none, (S.st.drawServiceTime w).1⟩] := rfl
    refine ⟨C + (S.st.drawServiceTime w).1, Φ, tR, nR, tE, nE, cb, ?_⟩
    constructor
    · exact hI.hq
    · rw [hredst]; simp
    · exact hI.hcb
    · rw [hredk]; exact hI.hqueue
    · exact hI.hseq
    · rw [hredk]; exact hI.hnR
    · rw [hredk]; exact hI.hnE
    · rw [hredk]; exact hI.hnowR
    · rw [hredk]; exact hI.hnowE
    · rw [hredst]
      have := hI.hcons
      simp only [sumRem, List.map_append, List.sum_append, List.map_cons, List.map_nil,
        List.sum_cons, List.sum_nil] at this ⊢
      linarith
    · rw [hredst]
      intro x hx
      rcases List.mem_append.mp hx with hx | hx
      · exact hI.hrem x hx
      · rcases List.mem_singleton.mp hx with rfl
        exact hd1
    · rw [hredst]
      intro x hx
      rcases List.mem_append.mp hx with hx | hx
      · exact hI.hdep x hx
      · rcases List.mem_singleton.mp hx with rfl
        rfl
    · rw [hredst, hredk]
      intro x hx
      rcases List.mem_append.mp hx with hx | hx
      · exact hI.harr x hx
      · rcases List.mem_singleton.mp hx with rfl
        exact le_refl _
    · intro hcb
      obtain ⟨r, rest, hact, hr0⟩ := hI.hcompl hcb
      rw [hredst, hact]
      exact ⟨r, rest ++ [⟨i, w, S.kern.now, none, (S.st.drawServiceTime w).1⟩],
        List.cons_append r rest _, hr0⟩
    · exact hI.hbusy
    · exact hI.hrp
  · -- idle: the dispatch step is scheduled with delay 0
    left
    obtain ⟨tR, nR, hkq, hnow, hnR⟩ := hI.hqueue
    have hredk : (Replica.request S i hd).kern = S.kern.add 0 RCb.onScheduleRequests := by
      unfold Replica.request
      rw [if_pos hI.hempty]
    have hredst : (Replica.request S i hd).st.activeRequests =
        S.st.activeRequests ++ [⟨i, w, S.kern.now, none, (S.st.drawServiceTime w).1⟩] := rfl
    refine ⟨(S.kern.now + 0) + sumRem (S.st.activeRequests ++
        [⟨i, w, S.kern.now, none, (S.st.drawServiceTime w).1⟩]),
      S.st.activeTime - (S.kern.now + 0), tR, nR, S.kern.now + 0, S.kern.nextSeq,
      RCb.onScheduleRequests, ?_⟩
    constructor
    · exact hI.hq
    · rw [hredst]; simp
    · exact Or.inl rfl
    · rw [hredk]
      left
      show S.kern.queue ++ [⟨S.kern.now + 0, S.kern.nextSeq, RCb.onScheduleRequests⟩] = _
      rw [hkq]
      rfl
    · omega
    · rw [hredk]
      show nR < S.kern.nextSeq + 1
      omega
    · rw [hredk]
      show S.kern.nextSeq < S.kern.nextSeq + 1
      omega
    · rw [hredk]; exact hnow
    · rw [hredk]
      show S.kern.now ≤ S.kern.now + 0
      linarith
    · rw [hredst]
    · rw [hredst]
      intro x hx
      rcases List.mem_append.mp hx with hx | hx
      · rw [hI.hempty] at hx; simp at hx
      · rcases List.mem_singleton.mp hx with rfl
        exact hd1
    · rw [hredst]
      intro x hx
      rcases List.mem_append.mp hx with hx | hx
      · rw [hI.hempty] at hx; simp at hx
      · rcases List.mem_singleton.mp hx with rfl
        rfl
    · rw [hredst, hredk]
      intro x hx
      rcases List.mem_append.mp hx with hx | hx
      · rw [hI.hempty] at hx; simp at hx
      · rcases List.mem_singleton.mp hx with rfl
        exact le_refl _
    · intro hcb
      cases hcb
    · right
      exact ⟨hI.hstarted, rfl, rfl⟩
    · exact hI.hrp

/-- Every kernel step preserves the reachable-state invariant. -/
theorem goodstate_kstep (S S₂ : RSys) (hG : GoodState S)
    (hks : kstep rhandler none S = some S₂) : GoodState S₂ := by
  rcases hG with ⟨C, Φ, tR, nR, tE, nE, cb, hI⟩ | hI
  · obtain ⟨S₃, hks3, hts3, hcase⟩ := busy_step_cases C Φ tR nR tE nE cb S hI
    rw [hks] at hks3
    obtain rfl : S₂ = S₃ := Option.some.inj hks3
    rcases hcase with ⟨hInv2, hmore⟩ | ⟨dL, hsh, h1, h2, h3, h4, h5, hrest⟩
    · exact Or.inl ⟨C, Φ, tR + 1, S.kern.nextSeq, tE, nE, cb, hInv2⟩
    · rcases hrest with ⟨tE2, nE2, cb2, hInv2, hprim⟩ | ⟨he, hIdle, hmore⟩
      · exact Or.inl ⟨C, Φ, tR, nR, tE2, nE2, cb2, hInv2⟩
      · exact Or.inr hIdle
  · obtain ⟨S₃, hks3, hI3, hmore⟩ := idle_step S hI
    rw [hks] at hks3
    obtain rfl : S₂ = S₃ := Option.some.inj hks3
    exact Or.inr hI3

/-- Along every kernel step, each surviving request keeps its identity and
its remaining service time never increases. -/
theorem step_monotone (S S₂ : RSys) (hG : GoodState S)
    (hks : kstep rhandler none S = some S₂) :
    ∀ x ∈ S₂.st.activeRequests, ∃ y ∈ S.st.activeRequests,
      rkey x = rkey y ∧ x.remainingTime ≤ y.remainingTime := by
  rcases hG with ⟨C, Φ, tR, nR, tE, nE, cb, hI⟩ | hI
  · obtain ⟨S₃, hks3, hts3, hcase⟩ := busy_step_cases C Φ tR nR tE nE cb S hI
    rw [hks] at hks3
    obtain rfl : S₂ = S₃ := Option.some.inj hks3
    rcases hcase with ⟨hInv2, hact2, hmore⟩ | ⟨dL, hsh, h1, h2, h3, h4, hmono, hrest⟩
    · intro x hx
      rw [hact2] at hx
      exact ⟨x, hx, rfl, le_refl _⟩
    · exact hmono
  · obtain ⟨S₃, hks3, hI3, hact3, hmore⟩ := idle_step S hI
    rw [hks] at hks3
    obtain rfl : S₂ = S₃ := Option.some.inj hks3
    intro x hx
    rw [hact3] at hx
    exact ⟨x, hx, rfl, le_refl _⟩

/-- Whenever a kernel step emits a reply (the log grows), the reply is a
single log entry stamped with the current departure time, and its latency
sample `departure - arrival` is appended to the latency window. -/
theorem step_reply_detail (C Φ tR : ℚ) (nR : ℕ) (tE : ℚ) (nE : ℕ) (cb : RCb) (S S₂ : RSys)
    (hI : BusyInv C Φ tR nR tE nE cb S)
    (hks : kstep rhandler none S = some S₂)
    (hgrow : S₂.st.completedLog ≠ S.st.completedLog) :
    ∃ r2 d, S₂.st.completedLog = S.st.completedLog ++ [r2] ∧ r2.departure = some d ∧
      S₂.st.latestLatencies = S.st.latestLatencies ++ [d - r2.arrival] ∧
      r2.arrival ≤ d ∧ d ≤ C := by
  obtain ⟨S₃, hks3, hts3, hcase⟩ := busy_step_cases C Φ tR nR tE nE cb S hI
  rw [hks] at hks3
  obtain rfl : S₂ = S₃ := Option.some.inj hks3
  rcases hcase with ⟨hInv2, hact2, hlog2, hmore⟩ |
    ⟨dL, hsh, hlog2, hlat2, hperm2, hdL, hmono, hrest⟩
  · exact absurd hlog2 hgrow
  · rcases hsh with rfl | ⟨rc, rfl⟩
    · rw [List.append_nil] at hlog2
      exact absurd hlog2 hgrow
    · obtain ⟨d, hdep, hd1, hd2⟩ := hdL rc (List.mem_singleton.mpr rfl)
      refine ⟨rc, d, hlog2, hdep, ?_, hd1, hd2⟩
      rw [hlat2, List.map_cons, List.map_nil, hdep]
      rfl

/-! ## C1: work conservation for two simultaneous requests -/

theorem mkTwo_red (q s1 s2 : ℚ) (hs1 : 0 ≤ s1) (hs2 : 0 ≤ s2) :
    mkTwo q s1 s2 =
      ⟨⟨0, [⟨1, 0, RCb.runReportLoop⟩, ⟨0, 1, RCb.onScheduleRequests⟩], 2⟩,
        { timeSlice := q, timeY := (s1, 0), timeN := (s2, 0), reportPeriod := 1,
          activeRequests := [⟨1, true, 0, none, s1⟩, ⟨2, false, 0, none, s2⟩],
          latestLatencies := [], activeTime := 0, activeTimeStarted := none,
          lastActiveTime := 0, zs := [], completedLog := [] }⟩ := by
  unfold mkTwo Replica.request initReplica runReportLoopBody Replica.drawServiceTime
    Replica.getActiveTime SimulatorKernel.add
  norm_num [List.lookup, max_eq_left hs1, max_eq_left hs2]

theorem mkTwo_busy (q s1 s2 : ℚ) (hq : 0 < q) (hs1 : 0 ≤ s1) (hs2 : 0 ≤ s2) :
    BusyInv (s1 + s2) 0 1 0 0 1 RCb.onScheduleRequests (mkTwo q s1 s2) := by
  rw [mkTwo_red q s1 s2 hs1 hs2]
  constructor
  · exact hq
  · simp
  · exact Or.inl rfl
  · exact Or.inl rfl
  · omega
  · show (0 : ℕ) < 2; omega
  · show (1 : ℕ) < 2; omega
  · show (0 : ℚ) ≤ 1; norm_num
  · show (0 : ℚ) ≤ 0; norm_num
  · show (0 : ℚ) + sumRem [⟨1, true, 0, none, s1⟩, ⟨2, false, 0, none, s2⟩] = s1 + s2
    simp [sumRem]
  · intro x hx
    rcases List.mem_cons.mp hx with rfl | hx
    · exact hs1
    · rcases List.mem_singleton.mp hx with rfl
      exact hs2
  · intro x hx
    rcases List.mem_cons.mp hx with rfl | hx
    · rfl
    · rcases List.mem_singleton.mp hx with rfl
      rfl
  · intro x hx
    rcases List.mem_cons.mp hx with rfl | hx
    · exact le_refl 0
    · rcases List.mem_singleton.mp hx with rfl
      exact le_refl 0
  · intro h
    cases h
  · exact Or.inr ⟨rfl, rfl, by norm_num⟩
  · rfl

/-- C1 (amended): for a `Replica` with quantum `q` and two requests with
required service times `s1` and `s2` both arriving at time 0 (no other
arrivals), the run eventually completes both requests, and the *second
departure* — the later of the two departure times, i.e. the departure stamp
of the last reply — equals exactly `s1 + s2`, regardless of `q` (no rounding
to quantum granularity occurs: the final time slice is partial); at that
moment the total accumulated busy time also equals `s1 + s2`. -/
theorem c1_second_departure (q s1 s2 : ℚ) (hq : 0 < q) (hs1 : 0 ≤ s1) (hs2 : 0 ≤ s2) :
    ∃ n lr,
      (runFuel rhandler none n (mkTwo q s1 s2)).st.completedLog.getLast? = some lr ∧
      lr.departure = some (s1 + s2) ∧
      (runFuel rhandler none n (mkTwo q s1 s2)).st.completedLog.length = 2 ∧
      (runFuel rhandler none n (mkTwo q s1 s2)).st.activeRequests = [] ∧
      (runFuel rhandler none n (mkTwo q s1 s2)).st.activeTime = s1 + s2 ∧
      (runFuel rhandler none n (mkTwo q s1 s2)).st.getActiveTime
        (runFuel rhandler none n (mkTwo q s1 s2)).kern.now = s1 + s2 := by
  obtain ⟨n, hD⟩ := drain _ _ (s1 + s2) 0 1 0 0 1 RCb.onScheduleRequests (mkTwo q s1 s2)
    (mkTwo_busy q s1 s2 hq hs1 hs2) rfl rfl
  obtain ⟨hA1, hA2, hA3, hA4, hA5, hA6, L, hL1, hL2, hL3, hL4, lr, hlr1, hlr2⟩ := hD
  have hlog0 : (mkTwo q s1 s2).st.completedLog = [] := by
    rw [mkTwo_red q s1 s2 hs1 hs2]
  have hlogT : (runFuel rhandler none n (mkTwo q s1 s2)).st.completedLog = L := by
    rw [hL1, hlog0, List.nil_append]
  refine ⟨n, lr, ?_, hlr2, ?_, hA1, ?_, ?_⟩
  · rw [hlogT]
    exact hlr1
  · rw [hlogT]
    have hlen : (L.map rkey).length =
        ((mkTwo q s1 s2).st.activeRequests.map rkey).length := hL3.length_eq
    rw [List.length_map, List.length_map] at hlen
    rw [hlen, mkTwo_red q s1 s2 hs1 hs2]
    rfl
  · rw [hA3]
    ring
  · unfold Replica.getActiveTime
    rw [hA2, hA3]
    norm_num

/-- Witness for `c1_second_departure` at `q = 1`, `s1 = 5`, `s2 = 1`. -/
theorem c1_second_departure_witness :
    ∃ n lr,
      (runFuel rhandler none n (mkTwo 1 5 1)).st.completedLog.getLast? = some lr ∧
      lr.departure = some ((5 : ℚ) + 1) ∧
      (runFuel rhandler none n (mkTwo 1 5 1)).st.completedLog.length = 2 ∧
      (runFuel rhandler none n (mkTwo 1 5 1)).st.activeRequests = [] ∧
      (runFuel rhandler none n (mkTwo 1 5 1)).st.activeTime = (5 : ℚ) + 1 ∧
      (runFuel rhandler none n (mkTwo 1 5 1)).st.getActiveTime
        (runFuel rhandler none n (mkTwo 1 5 1)).kern.now = (5 : ℚ) + 1 :=
  c1_second_departure 1 5 1 (by norm_num) (by norm_num) (by norm_num)

set_option maxHeartbeats 1000000 in
/-- Counterexample to C1 as literally stated: with quantum `q = 1` and
service times `s1 = 5`, `s2 = 1`, the second request (the one arriving
second, with service time `s2`) departs at virtual time 2, not at
`s1 + s2 = 6` (nor at any quantum-rounding of it); it is the other request
whose departure is 6. -/
theorem c1_counterexample :
    ((runFuel rhandler none 13 (mkTwo 1 5 1)).st.completedLog.map
      (fun r => (r.requestId, r.departure))) = [(2, some 2), (1, some 6)] ∧
    some ((2 : ℚ)) ≠ some ((5 : ℚ) + 1) := by
  constructor
  · norm_num [mkTwo, Replica.request, initReplica, runReportLoopBody, Replica.drawServiceTime,
      Replica.getActiveTime, SimulatorKernel.add, runFuel, kstep, findMin, evBefore, removeSeq,
      rhandler, onScheduleBody, onCompletedBody, List.lookup, List.filter]
  · norm_num

/-! ## C4, C5, C6, C10 -/

/-- A freshly constructed replica (with a positive quantum) is a reachable
idle state. -/
theorem initReplica_idle (q : ℚ) (ty tn : ℚ × ℚ) (zs : List ℚ) (hq : 0 < q) :
    IdleInv (initReplica q ty tn zs) :=
  ⟨hq, rfl, rfl, ⟨0 + 1, 0, rfl, by show (0 : ℚ) ≤ 0 + 1; norm_num,
    by show (0 : ℕ) < 0 + 1; omega⟩, rfl⟩

/-- C4: at every reachable point of a run, a replica with a non-empty
request queue has exactly one of its scheduling events (dispatch or
completion step) pending in the kernel, and one with an empty queue has
zero; kernel steps and `request` preserve reachability, and `request`
schedules the dispatch step with delay 0 if and only if the queue was empty
before the new request is appended. -/
theorem c4_single_scheduling_event :
    (∀ S : RSys, GoodState S →
      (S.kern.queue.filter (fun e => isSchedCb e.callback)).length =
        if S.st.activeRequests = [] then 0 else 1) ∧
    (∀ S S₂ : RSys, GoodState S → kstep rhandler none S = some S₂ → GoodState S₂) ∧
    (∀ (S : RSys) (i : ℕ) (hd : List (String × Bool)),
      GoodState S → GoodState (Replica.request S i hd)) ∧
    (∀ (S : RSys) (i : ℕ) (hd : List (String × Bool)),
      (Replica.request S i hd).kern.queue = S.kern.queue ++
        (if S.st.activeRequests = [] then
          [⟨S.kern.now, S.kern.nextSeq, RCb.onScheduleRequests⟩] else [])) := by
  refine ⟨?_, goodstate_kstep, request_good, fun S i hd => (request_queue_effect S i hd).1⟩
  intro S hG
  rcases hG with ⟨C, Φ, tR, nR, tE, nE, cb, hI⟩ | hI
  · rw [if_neg hI.hne]
    rcases hI.hqueue with hq1 | hq1 <;> rw [hq1] <;> rcases hI.hcb with rfl | rfl <;> rfl
  · rw [if_pos hI.hempty]
    obtain ⟨tR, nR, hq1, hmore⟩ := hI.hqueue
    rw [hq1]
    rfl

/-- Witness for `c4_single_scheduling_event`: its first conjunct at a fresh
replica. -/
theorem c4_single_scheduling_event_witness :
    ((initReplica 1 (1, 0) (1, 0) []).kern.queue.filter
      (fun e => isSchedCb e.callback)).length =
      if (initReplica 1 (1, 0) (1, 0) []).st.activeRequests = [] then 0 else 1 :=
  c4_single_scheduling_event.1 (initReplica 1 (1, 0) (1, 0) [])
    (Or.inr (initReplica_idle 1 (1, 0) (1, 0) [] (by norm_num)))

/-- A concrete busy replica state whose pending scheduling event is a
completion step. -/
def c5wit : RSys :=
  ⟨⟨0, [⟨1, 0, RCb.runReportLoop⟩, ⟨0, 1, RCb.onCompleted⟩], 2⟩,
    { timeSlice := 1, timeY := (1, 0), timeN := (1, 0), reportPeriod := 1,
      activeRequests := [⟨1, true, 0, none, 0⟩], latestLatencies := [], activeTime := 0,
      activeTimeStarted := some (0 - 0), lastActiveTime := 0, zs := [], completedLog := [] }⟩

theorem c5wit_busy : BusyInv 0 0 1 0 0 1 RCb.onCompleted c5wit := by
  constructor
  · show (0 : ℚ) < 1; norm_num
  · simp [c5wit]
  · exact Or.inr rfl
  · exact Or.inl rfl
  · omega
  · show (0 : ℕ) < 2; omega
  · show (1 : ℕ) < 2; omega
  · show (0 : ℚ) ≤ 1; norm_num
  · show (0 : ℚ) ≤ 0; norm_num
  · show (0 : ℚ) + sumRem [⟨1, true, 0, none, 0⟩] = 0
    simp [sumRem]
  · intro x hx
    rcases List.mem_singleton.mp hx with rfl
    exact le_refl 0
  · intro x hx
    rcases List.mem_singleton.mp hx with rfl
    rfl
  · intro x hx
    rcases List.mem_singleton.mp hx with rfl
    exact le_refl 0
  · intro h
    exact ⟨⟨1, true, 0, none, 0⟩, [], rfl, rfl⟩
  · exact Or.inl rfl
  · rfl

/-- C5: the service time of a new request is drawn as
`max(Normal(mu, sigma), 0)` from the distribution selected by
`withOptional` — `Normal(mu, sigma)` embedded as `mu + sigma * z` for the
next standard-normal sample `z` — hence non-negative at creation; across
every kernel step the remaining time of each surviving request never
increases; and the completion step is pending only when the head request's
remaining time is exactly 0, so it reaches exactly 0 before the request is
completed. -/
theorem c5_remaining_time :
    (∀ (s : Replica) (w : Bool),
      (s.drawServiceTime w).1 =
        max ((if w then s.timeY else s.timeN).1 +
          (if w then s.timeY else s.timeN).2 * s.zs.headD 0) 0 ∧
      0 ≤ (s.drawServiceTime w).1) ∧
    (∀ S S₂ : RSys, GoodState S → kstep rhandler none S = some S₂ →
      ∀ x ∈ S₂.st.activeRequests, ∃ y ∈ S.st.activeRequests,
        rkey x = rkey y ∧ x.remainingTime ≤ y.remainingTime) ∧
    (∀ (C Φ tR : ℚ) (nR : ℕ) (tE : ℚ) (nE : ℕ) (S : RSys),
      BusyInv C Φ tR nR tE nE RCb.onCompleted S →
      ∃ r rest, S.st.activeRequests = r :: rest ∧ r.remainingTime = 0) := by
  refine ⟨?_, step_monotone, ?_⟩
  · intro s w
    exact ⟨rfl, le_max_right _ _⟩
  · intro C Φ tR nR tE nE S hI
    exact hI.hcompl rfl

/-- Witness for `c5_remaining_time`: its completion-only-at-zero conjunct at
a concrete busy state. -/
theorem c5_remaining_time_witness :
    ∃ r rest, c5wit.st.activeRequests = r :: rest ∧ r.remainingTime = 0 :=
  c5_remaining_time.2.2 0 0 1 0 0 1 c5wit c5wit_busy

/-- C6: for every request accepted by `request` (from a reachable busy
state with a fresh log and distinct request ids), eventually exactly one
reply carrying the request's own `withOptional` flag appears in the reply
log, stamped with a departure time at or after the request's arrival time,
and it persists for the rest of the run; moreover whenever a step emits a
reply, the departure is stamped with the current time and
`departure - arrival` is recorded as a latency sample at that moment. -/
theorem c6_exactly_one_reply :
    (∀ (C Φ tR : ℚ) (nR : ℕ) (tE : ℚ) (nE : ℕ) (cb : RCb) (S : RSys),
      BusyInv C Φ tR nR tE nE cb S →
      S.st.completedLog = [] →
      (S.st.activeRequests.map RRequest.requestId).Nodup →
      ∀ r ∈ S.st.activeRequests,
        ∃ n r2 d, (∀ m, n ≤ m →
            ((runFuel rhandler none m S).st.completedLog.filter
              (fun x => decide (x.requestId = r.requestId))) = [r2]) ∧
          r2.requestId = r.requestId ∧ r2.withOptional = r.withOptional ∧
          r2.arrival = r.arrival ∧
          r2.departure = some d ∧ r.arrival ≤ d ∧ d ≤ C) ∧
    (∀ (C Φ tR : ℚ) (nR : ℕ) (tE : ℚ) (nE : ℕ) (cb : RCb) (S S₂ : RSys),
      BusyInv C Φ tR nR tE nE cb S →
      kstep rhandler none S = some S₂ →
      S₂.st.completedLog ≠ S.st.completedLog →
      ∃ r2 d, S₂.st.completedLog = S.st.completedLog ++ [r2] ∧ r2.departure = some d ∧
        S₂.st.latestLatencies = S.st.latestLatencies ++ [d - r2.arrival] ∧
        r2.arrival ≤ d ∧ d ≤ C) :=
  ⟨eventual_reply, step_reply_detail⟩

/-- Witness for `c6_exactly_one_reply`: its first conjunct at the concrete
two-request scenario with quantum 1 and service times 2 and 3. -/
theorem c6_exactly_one_reply_witness :
    ∃ n r2 d, (∀ m, n ≤ m →
        ((runFuel rhandler none m (mkTwo 1 2 3)).st.completedLog.filter
          (fun x => decide (x.requestId =
            (⟨1, true, 0, none, 2⟩ : RRequest).requestId))) = [r2]) ∧
      r2.requestId = (⟨1, true, 0, none, 2⟩ : RRequest).requestId ∧
      r2.withOptional = (⟨1, true, 0, none, 2⟩ : RRequest).withOptional ∧
      r2.arrival = (⟨1, true, 0, none, 2⟩ : RRequest).arrival ∧
      r2.departure = some d ∧ (⟨1, true, 0, none, 2⟩ : RRequest).arrival ≤ d ∧
      d ≤ (2 : ℚ) + 3 :=
  c6_exactly_one_reply.1 ((2 : ℚ) + 3) 0 1 0 0 1 RCb.onScheduleRequests (mkTwo 1 2 3)
    (mkTwo_busy 1 2 3 (by norm_num) (by norm_num) (by norm_num))
    (by rw [mkTwo_red 1 2 3 (by norm_num) (by norm_num)])
    (by rw [mkTwo_red 1 2 3 (by norm_num) (by norm_num)]; decide)
    ⟨1, true, 0, none, 2⟩
    (by rw [mkTwo_red 1 2 3 (by norm_num) (by norm_num)]; exact List.mem_cons_self _ _)

/-- C10: a `request` whose headers dictionary does not contain the key
`withOptional` is treated as `withOptional = false`: it behaves exactly as
if the header were present with value `False`, its service time is drawn
from the without-optional distribution `timeN`, and (from a reachable busy
state, fresh log, distinct ids) the eventual reply carries
`withOptional = false`. -/
theorem c10_default_without_optional :
    (∀ (S : RSys) (i : ℕ) (hd : List (String × Bool)),
      hd.lookup "withOptional" = none →
      Replica.request S i hd = Replica.request S i [("withOptional", false)] ∧
      (Replica.request S i hd).st.activeRequests = S.st.activeRequests ++
        [⟨i, false, S.kern.now, none,
          max (S.st.timeN.1 + S.st.timeN.2 * S.st.zs.headD 0) 0⟩]) ∧
    (∀ (C Φ tR : ℚ) (nR : ℕ) (tE : ℚ) (nE : ℕ) (cb : RCb) (S : RSys),
      BusyInv C Φ tR nR tE nE cb S →
      S.st.completedLog = [] →
      (S.st.activeRequests.map RRequest.requestId).Nodup →
      ∀ r ∈ S.st.activeRequests, r.withOptional = false →
        ∃ n r2 d, (∀ m, n ≤ m →
            ((runFuel rhandler none m S).st.completedLog.filter
              (fun x => decide (x.requestId = r.requestId))) = [r2]) ∧
          r2.withOptional = false ∧ r2.departure = some d) := by
  constructor
  · intro S i hd hno
    constructor
    · unfold Replica.request
      rw [hno]
      norm_num [List.lookup]
    · unfold Replica.request Replica.drawServiceTime
      rw [hno]
      rfl
  · intro C Φ tR nR tE nE cb S hI hlog0 hnd r hr hflag
    obtain ⟨n, r2, d, hstab, hid, hfl, harr2, hdep, hd1, hd2⟩ :=
      eventual_reply C Φ tR nR tE nE cb S hI hlog0 hnd r hr
    exact ⟨n, r2, d, hstab, by rw [hfl, hflag], hdep⟩

/-- Witness for `c10_default_without_optional`: its first conjunct at a
fresh replica and empty headers. -/
theorem c10_default_without_optional_witness :
    Replica.request (initReplica 1 (1, 0) (2, 0) [0]) 7 [] =
      Replica.request (initReplica 1 (1, 0) (2, 0) [0]) 7 [("withOptional", false)] ∧
    (Replica.request (initReplica 1 (1, 0) (2, 0) [0]) 7 []).st.activeRequests =
      (initReplica 1 (1, 0) (2, 0) [0]).st.activeRequests ++
        [⟨7, false, (initReplica 1 (1, 0) (2, 0) [0]).kern.now, none,
          max ((initReplica 1 (1, 0) (2, 0) [0]).st.timeN.1 +
            (initReplica 1 (1, 0) (2, 0) [0]).st.timeN.2 *
              (initReplica 1 (1, 0) (2, 0) [0]).st.zs.headD 0) 0⟩] :=
  c10_default_without_optional.1 (initReplica 1 (1, 0) (2, 0) [0]) 7 [] rfl

/-! ## AutoScaler (from `src/plants/autoscaler.py`) -/

/-- `BackendStatus`: lifecycle status of a replica as seen by the
auto-scaler. -/
inductive BackendStatus
  | STOPPED
  | STARTING
  | STARTED
  | STOPPING
  deriving DecidableEq

/-- A managed backend: an identifying handle plus its mutable
`autoScaleStatus`. -/
structure ASBackend where
  ident : ℕ
  autoScaleStatus : BackendStatus
  deriving DecidableEq

/-- State of the `AutoScaler`.  The controller is the default
`AbstractAutoScalerController` (constructed when `controller is None`),
whose four hooks all return 0, so every `scaleBy(controller.onStatus(...))`
feedback call is `scaleBy(0)`, a no-op, and is not represented.
`pendingStartups` is a ghost log of the `sim.add(startupDelay,
startupCompleted)` calls issued by `scaleUp`, `pendingShutdowns` a ghost log
of the `loadBalancer.removeBackend(backend, shutdownCompleted)` calls issued
by `scaleDown` (the load balancer is an external collaborator), and
`lbBackends` a ghost log of `loadBalancer.addBackend` registrations; each
recorded by backend handle in issue order. -/
structure ASState where
  backends : List ASBackend
  pendingStartups : List ℕ
  pendingShutdowns : List ℕ
  lbBackends : List ℕ
  deriving DecidableEq

/-- The first backend in fleet order whose status is `STOPPED`, transitioned
to `STARTING` (`scaleUp`'s selection: `[ ... ][0]` over the filtered list,
FIFO). -/
def startFirstStopped : List ASBackend → Option (ℕ × List ASBackend)
  | [] => none
  | b :: rest =>
    if b.autoScaleStatus = BackendStatus.STOPPED then
      some (b.ident, { b with autoScaleStatus := BackendStatus.STARTING } :: rest)
    else
      (startFirstStopped rest).map (fun p => (p.1, b :: p.2))

/-- The last backend in fleet order whose status is `STARTED`, transitioned
to `STOPPING` (`scaleDown`'s selection: `[ ... ][-1]`, LIFO). -/
def stopLastStarted : List ASBackend → Option (ℕ × List ASBackend)
  | [] => none
  | b :: rest =>
    match stopLastStarted rest with
    | some p => some (p.1, b :: p.2)
    | none =>
      if b.autoScaleStatus = BackendStatus.STARTED then
        some (b.ident, { b with autoScaleStatus := BackendStatus.STOPPING } :: rest)
      else none

/-- `AutoScaler.scaleUp`: transition the first `STOPPED` backend to
`STARTING` and schedule its `startupCompleted` callback after the startup
delay; when no backend is `STOPPED` the list comprehension's `[0]` raises
`IndexError`, caught and re-raised as the documented fatal `RuntimeError`
before any state is mutated. -/
def scaleUp (s : ASState) : Except String ASState :=
  match startFirstStopped s.backends with
  | none =>
    Except.error "AutoScaler was asked to scale up, but no backends are available."
  | some p =>
    Except.ok { s with backends := p.2, pendingStartups := s.pendingStartups ++ [p.1] }

/-- `startupCompleted` for backend `i`: mark it `STARTED` and register it
with the load balancer. -/
def startupCompleted (s : ASState) (i : ℕ) : ASState :=
  { s with
      backends := s.backends.map (fun b =>
        if b.ident = i then { b with autoScaleStatus := BackendStatus.STARTED } else b)
      lbBackends := s.lbBackends ++ [i] }

/-- `AutoScaler.scaleDown`: transition the last `STARTED` backend to
`STOPPING` and ask the load balancer to drain it (with the
`shutdownCompleted` callback); when no backend is `STARTED` the `[-1]`
raises `IndexError`, caught and re-raised as the documented fatal
`RuntimeError` before any state is mutated. -/
def scaleDown (s : ASState) : Except String ASState :=
  match stopLastStarted s.backends with
  | none =>
    Except.error "AutoScaler was asked to scale down, but no backends are started."
  | some p =>
    Except.ok { s with backends := p.2, pendingShutdowns := s.pendingShutdowns ++ [p.1] }

/-- `shutdownCompleted` for backend `i`: mark it `STOPPED`. -/
def shutdownCompleted (s : ASState) (i : ℕ) : ASState :=
  { s with
      backends := s.backends.map (fun b =>
        if b.ident = i then { b with autoScaleStatus := BackendStatus.STOPPED } else b) }

/-- A Python 2 value that `scaleBy` or `scaleTo` may receive: an integer,
the float `nan`, or `None`. -/
inductive PyNum
  | none
  | nan
  | int (z : ℤ)
  deriving DecidableEq

/-- Python 2 `x == 0`: false for both `None` and `nan`. -/
def PyNum.eqZero : PyNum → Bool
  | PyNum.int z => decide (z = 0)
  | _ => false

/-- Python 2 `x > 0`: false for `None` (which compares smaller than every
number) and for `nan` (every comparison with `nan` is false). -/
def PyNum.gtZero : PyNum → Bool
  | PyNum.int z => decide (0 < z)
  | _ => false

/-- Python 2 `x < 0`: TRUE for `None` (in Python 2, `None` compares smaller
than every number) and false for `nan`. -/
def PyNum.ltZero : PyNum → Bool
  | PyNum.int z => decide (z < 0)
  | PyNum.none => true
  | PyNum.nan => false

/-- Iterate a fallible operation `n` times, propagating the first error. -/
def iterateE (f : ASState → Except String ASState) : ℕ → ASState → Except String ASState
  | 0, s => Except.ok s
  | n + 1, s => (f s).bind (iterateE f n)

/-- `AutoScaler.scaleBy(by)` under Python 2 semantics: `if by == 0: return`,
then `while by > 0: scaleUp(); by -= 1`, then `while by < 0: scaleDown();
by += 1`.  For an integer argument the matching loop runs `|by|` times; for
`nan` every comparison is false, so nothing happens; for `None` the guard
`None < 0` of the second loop is true, one `scaleDown()` runs, and then
`by += 1` raises `TypeError` (unsupported operand for `NoneType` and
`int`). -/
def scaleBy (s : ASState) (delta : PyNum) : Except String ASState :=
  if delta.eqZero then Except.ok s
  else
    match delta with
    | PyNum.int z =>
      if PyNum.gtZero (PyNum.int z) then iterateE scaleUp z.toNat s
      else if PyNum.ltZero (PyNum.int z) then iterateE scaleDown z.natAbs s
      else Except.ok s
    | PyNum.nan => Except.ok s
    | PyNum.none =>
      (scaleDown s).bind (fun _ =>
        Except.error "TypeError: unsupported operand type for +=: NoneType and int")

/-- Number of backends in a given lifecycle state. -/
def numWithStatus (bs : List ASBackend) (st : BackendStatus) : ℕ :=
  (bs.filter (fun b => decide (b.autoScaleStatus = st))).length

/-- `numStarting + numStarted`: the count that `scaleTo` drives to its
target (`numReplicasThatWillBeStarted`). -/
def numWillBeStarted (s : ASState) : ℕ :=
  numWithStatus s.backends BackendStatus.STARTING +
    numWithStatus s.backends BackendStatus.STARTED

/-- The `while True` loop of `scaleTo`, with fuel.  `scaleTo` passes the
exact distance to the target, which decreases by one on every successful
iteration, so the fuel never runs out before the loop's own exit test. -/
def scaleToLoop (target : ℤ) : ℕ → ASState → Except String ASState
  | 0, s => Except.ok s
  | n + 1, s =>
    if (numWillBeStarted s : ℤ) < target then (scaleUp s).bind (scaleToLoop target n)
    else if target < (numWillBeStarted s : ℤ) then (scaleDown s).bind (scaleToLoop target n)
    else Except.ok s

/-- `AutoScaler.scaleTo(numReplicas)` under Python 2 semantics: `None` and
`nan` return immediately (`numReplicas == None or numReplicas !=
numReplicas`); a negative target raises the documented `RuntimeError`;
otherwise the loop calls `scaleUp` / `scaleDown` until `numStarting +
numStarted` equals the target.  Integer-valued targets are embedded (a
fractional float target would make the source loop oscillate forever and is
outside every claim's scope). -/
def scaleTo (s : ASState) (target : PyNum) : Except String ASState :=
  match target with
  | PyNum.none => Except.ok s
  | PyNum.nan => Except.ok s
  | PyNum.int z =>
    if z < 0 then
      Except.error
        ("Scaling to a negative number of replicas does not make sense: " ++ toString z)
    else scaleToLoop z (z - (numWillBeStarted s : ℤ)).natAbs s

/-! ## AutoScaler lemmas -/

theorem startFirstStopped_some {bs : List ASBackend} {i : ℕ} {bs2 : List ASBackend}
    (h : startFirstStopped bs = some (i, bs2)) :
    ∃ pre b post, bs = pre ++ b :: post ∧
      (∀ x ∈ pre, x.autoScaleStatus ≠ BackendStatus.STOPPED) ∧
      b.autoScaleStatus = BackendStatus.STOPPED ∧ i = b.ident ∧
      bs2 = pre ++ { b with autoScaleStatus := BackendStatus.STARTING } :: post := by
  induction bs generalizing i bs2 with
  | nil => simp [startFirstStopped] at h
  | cons b rest ih =>
    unfold startFirstStopped at h
    by_cases hb : b.autoScaleStatus = BackendStatus.STOPPED
    · rw [if_pos hb] at h
      simp only [Option.some.injEq, Prod.mk.injEq] at h
      exact ⟨[], b, rest, rfl, by simp, hb, h.1.symm, by rw [← h.2]; rfl⟩
    · rw [if_neg hb] at h
      cases hrec : startFirstStopped rest with
      | none => rw [hrec] at h; simp at h
      | some p =>
        rw [hrec, Option.map_some'] at h
        simp only [Option.some.injEq, Prod.mk.injEq] at h
        obtain ⟨pre, c, post, hbs, hpre, hc, hi, hbs2⟩ :=
          ih (show startFirstStopped rest = some (p.1, p.2) from by rw [hrec])
        refine ⟨b :: pre, c, post, by rw [hbs]; rfl, ?_, hc, by rw [← h.1, hi], ?_⟩
        · intro x hx
          rcases List.mem_cons.mp hx with rfl | hx
          · exact hb
          · exact hpre x hx
        · rw [← h.2, hbs2]
          rfl

theorem startFirstStopped_none {bs : List ASBackend} :
    startFirstStopped bs = none ↔
      ∀ b ∈ bs, b.autoScaleStatus ≠ BackendStatus.STOPPED := by
  induction bs with
  | nil => simp [startFirstStopped]
  | cons b rest ih =>
    unfold startFirstStopped
    by_cases hb : b.autoScaleStatus = BackendStatus.STOPPED
    · rw [if_pos hb]
      simp [hb]
    · rw [if_neg hb]
      cases hrec : startFirstStopped rest with
      | none =>
        rw [Option.map_none']
        constructor
        · intro h2 x hx
          rcases List.mem_cons.mp hx with rfl | hx
          · exact hb
          · exact (ih.mp hrec) x hx
        · intro h2; rfl
      | some p =>
        rw [Option.map_some']
        constructor
        · intro h2; cases h2
        · intro h2
          have := ih.mpr (fun x hx => h2 x (List.mem_cons_of_mem b hx))
          rw [this] at hrec
          cases hrec

theorem stopLastStarted_isSome_of_mem {bs : List ASBackend} {x : ASBackend}
    (hx : x ∈ bs) (hst : x.autoScaleStatus = BackendStatus.STARTED) :
    ∃ q, stopLastStarted bs = some q := by
  induction bs with
  | nil => simp at hx
  | cons c cs ih =>
    unfold stopLastStarted
    cases h2 : stopLastStarted cs with
    | some q => exact ⟨_, rfl⟩
    | none =>
      rcases List.mem_cons.mp hx with rfl | hx2
      · rw [if_pos hst]
        exact ⟨_, rfl⟩
      · obtain ⟨q, hq⟩ := ih hx2
        rw [h2] at hq
        cases hq

theorem stopLastStarted_some {bs : List ASBackend} {i : ℕ} {bs2 : List ASBackend}
    (h : stopLastStarted bs = some (i, bs2)) :
    ∃ pre b post, bs = pre ++ b :: post ∧
      (∀ x ∈ post, x.autoScaleStatus ≠ BackendStatus.STARTED) ∧
      b.autoScaleStatus = BackendStatus.STARTED ∧ i = b.ident ∧
      bs2 = pre ++ { b with autoScaleStatus := BackendStatus.STOPPING } :: post := by
  induction bs generalizing i bs2 with
  | nil => simp [stopLastStarted] at h
  | cons b rest ih =>
    unfold stopLastStarted at h
    cases hrec : stopLastStarted rest with
    | some p =>
      rw [hrec] at h
      simp only [Option.some.injEq, Prod.mk.injEq] at h
      obtain ⟨pre, c, post, hbs, hpost, hc, hi, hbs2⟩ :=
        ih (show stopLastStarted rest = some (p.1, p.2) from by rw [hrec])
      refine ⟨b :: pre, c, post, by rw [hbs]; rfl, hpost, hc, by rw [← h.1, hi], ?_⟩
      rw [← h.2, hbs2]
      rfl
    | none =>
      rw [hrec] at h
      by_cases hb : b.autoScaleStatus = BackendStatus.STARTED
      · rw [if_pos hb] at h
        simp only [Option.some.injEq, Prod.mk.injEq] at h
        refine ⟨[], b, rest, rfl, ?_, hb, h.1.symm, by rw [← h.2]; rfl⟩
        intro x hx hst
        obtain ⟨q, hq⟩ := stopLastStarted_isSome_of_mem hx hst
        rw [hq] at hrec
        cases hrec
      · rw [if_neg hb] at h
        cases h

theorem stopLastStarted_none_of : ∀ bs : List ASBackend,
    (∀ b ∈ bs, b.autoScaleStatus ≠ BackendStatus.STARTED) →
    stopLastStarted bs = none := by
  intro bs
  induction bs with
  | nil => intro h; rfl
  | cons c cs ih =>
    intro h
    unfold stopLastStarted
    rw [ih (fun x hx => h x (List.mem_cons_of_mem c hx))]
    simp [h c (List.mem_cons_self c cs)]

theorem numWithStatus_append (l1 l2 : List ASBackend) (st : BackendStatus) :
    numWithStatus (l1 ++ l2) st = numWithStatus l1 st + numWithStatus l2 st := by
  simp [numWithStatus, List.filter_append]

theorem numWithStatus_cons (b : ASBackend) (l : List ASBackend) (st : BackendStatus) :
    numWithStatus (b :: l) st =
      (if b.autoScaleStatus = st then 1 else 0) + numWithStatus l st := by
  unfold numWithStatus
  rw [List.filter_cons]
  by_cases h : b.autoScaleStatus = st
  · simp [h]
    omega
  · simp [h]

/-- `scaleUp` moves one backend from `STOPPED` to `STARTING`, so the count
`numStarting + numStarted` increases by exactly one. -/
theorem scaleUp_count {s s2 : ASState} (h : scaleUp s = Except.ok s2) :
    numWillBeStarted s2 = numWillBeStarted s + 1 := by
  unfold scaleUp at h
  cases hss : startFirstStopped s.backends with
  | none => rw [hss] at h; cases h
  | some p =>
    rw [hss] at h
    simp only [Except.ok.injEq] at h
    subst h
    obtain ⟨pre, b, post, hbs, hpre, hb, hi, hbs2⟩ :=
      startFirstStopped_some (show startFirstStopped s.backends = some (p.1, p.2) from by
        rw [hss])
    show numWillBeStarted ⟨p.2, _, _, _⟩ = numWillBeStarted s + 1
    unfold numWillBeStarted
    show numWithStatus p.2 _ + numWithStatus p.2 _ =
      numWithStatus s.backends _ + numWithStatus s.backends _ + 1
    rw [hbs2, hbs]
    rw [numWithStatus_append, numWithStatus_append, numWithStatus_append,
      numWithStatus_append, numWithStatus_cons, numWithStatus_cons,
      numWithStatus_cons, numWithStatus_cons]
    simp [hb]
    omega

/-- `scaleDown` moves one backend from `STARTED` to `STOPPING`, so the
count `numStarting + numStarted` decreases by exactly one. -/
theorem scaleDown_count {s s2 : ASState} (h : scaleDown s = Except.ok s2) :
    numWillBeStarted s2 + 1 = numWillBeStarted s := by
  unfold scaleDown at h
  cases hss : stopLastStarted s.backends with
  | none => rw [hss] at h; cases h
  | some p =>
    rw [hss] at h
    simp only [Except.ok.injEq] at h
    subst h
    obtain ⟨pre, b, post, hbs, hpost, hb, hi, hbs2⟩ :=
      stopLastStarted_some (show stopLastStarted s.backends = some (p.1, p.2) from by
        rw [hss])
    show numWillBeStarted ⟨p.2, _, _, _⟩ + 1 = numWillBeStarted s
    unfold numWillBeStarted
    show numWithStatus p.2 _ + numWithStatus p.2 _ + 1 =
      numWithStatus s.backends _ + numWithStatus s.backends _
    rw [hbs2, hbs]
    rw [numWithStatus_append, numWithStatus_append, numWithStatus_append,
      numWithStatus_append, numWithStatus_cons, numWithStatus_cons,
      numWithStatus_cons, numWithStatus_cons]
    simp [hb]
    omega

/-- The `scaleTo` loop, given fuel equal to the distance to the target,
stops exactly at the target (or propagates a `scaleUp`/`scaleDown` error). -/
theorem scaleToLoop_ok : ∀ (d : ℕ) (z : ℤ) (s s2 : ASState),
    (z - (numWillBeStarted s : ℤ)).natAbs = d →
    scaleToLoop z d s = Except.ok s2 →
    (numWillBeStarted s2 : ℤ) = z := by
  intro d
  induction d with
  | zero =>
    intro z s s2 hd h
    have hz : z = (numWillBeStarted s : ℤ) := by omega
    unfold scaleToLoop at h
    simp only [Except.ok.injEq] at h
    subst h
    omega
  | succ d ih =>
    intro z s s2 hd h
    unfold scaleToLoop at h
    by_cases h1 : (numWillBeStarted s : ℤ) < z
    · rw [if_pos h1] at h
      cases hup : scaleUp s with
      | error e => rw [hup] at h; cases h
      | ok s1 =>
        rw [hup] at h
        have hc := scaleUp_count hup
        exact ih z s1 s2 (by omega) h
    · rw [if_neg h1] at h
      by_cases h2 : z < (numWillBeStarted s : ℤ)
      · rw [if_pos h2] at h
        cases hdn : scaleDown s with
        | error e => rw [hdn] at h; cases h
        | ok s1 =>
          rw [hdn] at h
          have hc := scaleDown_count hdn
          exact ih z s1 s2 (by omega) h
      · rw [if_neg h2] at h
        simp only [Except.ok.injEq] at h
        subst h
        omega

/-! ## C7, C8, C9 -/

/-- Fleet `[A, B, C]` with all three backends `STOPPED` (handles 0, 1, 2 in
registration order). -/
def fleetABC : ASState :=
  ⟨[⟨0, BackendStatus.STOPPED⟩, ⟨1, BackendStatus.STOPPED⟩, ⟨2, BackendStatus.STOPPED⟩],
    [], [], []⟩

/-- Fleet `[A, B, C]` with all three backends `STARTED`. -/
def fleetStarted : ASState :=
  ⟨[⟨0, BackendStatus.STARTED⟩, ⟨1, BackendStatus.STARTED⟩, ⟨2, BackendStatus.STARTED⟩],
    [], [], []⟩

/-- C7: `scaleUp` selects the first backend in fleet order whose state is
`Stopped` (FIFO) and `scaleDown` the last backend in fleet order whose state
is `Started` (LIFO); with backends `[A, B, C]` all stopped, three `scaleUp`
calls start them in order A, B, C, and once all are started `scaleDown`
stops C first; when no eligible backend exists the operation raises the
documented fatal `RuntimeError`, returning before any backend's lifecycle
state is touched. -/
theorem c7_fifo_lifo_selection :
    (∀ s s2 : ASState, scaleUp s = Except.ok s2 →
      ∃ pre b post, s.backends = pre ++ b :: post ∧
        (∀ x ∈ pre, x.autoScaleStatus ≠ BackendStatus.STOPPED) ∧
        b.autoScaleStatus = BackendStatus.STOPPED ∧
        s2.backends = pre ++ { b with autoScaleStatus := BackendStatus.STARTING } :: post ∧
        s2.pendingStartups = s.pendingStartups ++ [b.ident]) ∧
    (∀ s s2 : ASState, scaleDown s = Except.ok s2 →
      ∃ pre b post, s.backends = pre ++ b :: post ∧
        (∀ x ∈ post, x.autoScaleStatus ≠ BackendStatus.STARTED) ∧
        b.autoScaleStatus = BackendStatus.STARTED ∧
        s2.backends = pre ++ { b with autoScaleStatus := BackendStatus.STOPPING } :: post ∧
        s2.pendingShutdowns = s.pendingShutdowns ++ [b.ident]) ∧
    (∀ s : ASState, (∀ b ∈ s.backends, b.autoScaleStatus ≠ BackendStatus.STOPPED) →
      scaleUp s =
        Except.error "AutoScaler was asked to scale up, but no backends are available.") ∧
    (∀ s : ASState, (∀ b ∈ s.backends, b.autoScaleStatus ≠ BackendStatus.STARTED) →
      scaleDown s =
        Except.error "AutoScaler was asked to scale down, but no backends are started.") ∧
    iterateE scaleUp 3 fleetABC =
      Except.ok ⟨[⟨0, BackendStatus.STARTING⟩, ⟨1, BackendStatus.STARTING⟩,
        ⟨2, BackendStatus.STARTING⟩], [0, 1, 2], [], []⟩ ∧
    scaleDown fleetStarted =
      Except.ok ⟨[⟨0, BackendStatus.STARTED⟩, ⟨1, BackendStatus.STARTED⟩,
        ⟨2, BackendStatus.STOPPING⟩], [], [2], []⟩ := by
  refine ⟨?_, ?_, ?_, ?_, rfl, rfl⟩
  · intro s s2 h
    unfold scaleUp at h
    cases hss : startFirstStopped s.backends with
    | none => rw [hss] at h; cases h
    | some p =>
      rw [hss] at h
      simp only [Except.ok.injEq] at h
      subst h
      obtain ⟨pre, b, post, hbs, hpre, hb, hi, hbs2⟩ :=
        startFirstStopped_some (show startFirstStopped s.backends = some (p.1, p.2) from by
          rw [hss])
      exact ⟨pre, b, post, hbs, hpre, hb, hbs2, by rw [hi]⟩
  · intro s s2 h
    unfold scaleDown at h
    cases hss : stopLastStarted s.backends with
    | none => rw [hss] at h; cases h
    | some p =>
      rw [hss] at h
      simp only [Except.ok.injEq] at h
      subst h
      obtain ⟨pre, b, post, hbs, hpost, hb, hi, hbs2⟩ :=
        stopLastStarted_some (show stopLastStarted s.backends = some (p.1, p.2) from by
          rw [hss])
      exact ⟨pre, b, post, hbs, hpost, hb, hbs2, by rw [hi]⟩
  · intro s h
    unfold scaleUp
    rw [startFirstStopped_none.mpr h]
  · intro s h
    unfold scaleDown
    rw [stopLastStarted_none_of s.backends h]

/-- Witness for `c7_fifo_lifo_selection`: its FIFO conjunct at the concrete
all-stopped fleet. -/
theorem c7_fifo_lifo_selection_witness :
    ∃ pre b post, fleetABC.backends = pre ++ b :: post ∧
      (∀ x ∈ pre, x.autoScaleStatus ≠ BackendStatus.STOPPED) ∧
      b.autoScaleStatus = BackendStatus.STOPPED ∧
      (⟨[⟨0, BackendStatus.STARTING⟩, ⟨1, BackendStatus.STOPPED⟩,
        ⟨2, BackendStatus.STOPPED⟩], [0], [], []⟩ : ASState).backends =
        pre ++ { b with autoScaleStatus := BackendStatus.STARTING } :: post ∧
      (⟨[⟨0, BackendStatus.STARTING⟩, ⟨1, BackendStatus.STOPPED⟩,
        ⟨2, BackendStatus.STOPPED⟩], [0], [], []⟩ : ASState).pendingStartups =
        fleetABC.pendingStartups ++ [b.ident] :=
  c7_fifo_lifo_selection.1 fleetABC
    ⟨[⟨0, BackendStatus.STARTING⟩, ⟨1, BackendStatus.STOPPED⟩,
      ⟨2, BackendStatus.STOPPED⟩], [0], [], []⟩ rfl

/-- C8 (amended): `scaleBy(delta)` applies unit scale actions `|delta|`
times — `scaleUp` exactly `delta` times for an integer `delta > 0`,
`scaleDown` exactly `|delta|` times for an integer `delta < 0` — and
`delta = 0` and NaN deltas are no-ops; but a `None` (undefined) delta is
NOT a no-op: Python 2 evaluates `None < 0` as true, so `scaleBy(None)`
performs one `scaleDown` and then crashes with a `TypeError` on `by += 1`. -/
theorem c8_scale_by :
    (∀ (s : ASState) (z : ℤ), 0 ≤ z →
      scaleBy s (PyNum.int z) = iterateE scaleUp z.toNat s) ∧
    (∀ (s : ASState) (z : ℤ), z < 0 →
      scaleBy s (PyNum.int z) = iterateE scaleDown z.natAbs s) ∧
    (∀ s : ASState, scaleBy s (PyNum.int 0) = Except.ok s) ∧
    (∀ s : ASState, scaleBy s PyNum.nan = Except.ok s) ∧
    (∀ s : ASState, ∃ e, scaleBy s PyNum.none = Except.error e) := by
  refine ⟨?_, ?_, fun s => rfl, fun s => rfl, ?_⟩
  · intro s z hz
    rcases eq_or_lt_of_le hz with heq | hpos
    · rw [← heq]
      rfl
    · unfold scaleBy
      have h1 : PyNum.eqZero (PyNum.int z) = false := by
        simp only [PyNum.eqZero, decide_eq_false_iff_not]
        omega
      have h2 : PyNum.gtZero (PyNum.int z) = true := by
        simp only [PyNum.gtZero, decide_eq_true_eq]
        omega
      rw [h1]
      simp only [Bool.false_eq_true, if_false, h2, if_true]
  · intro s z hz
    unfold scaleBy
    have h1 : PyNum.eqZero (PyNum.int z) = false := by
      simp only [PyNum.eqZero, decide_eq_false_iff_not]
      omega
    have h2 : PyNum.gtZero (PyNum.int z) = false := by
      simp only [PyNum.gtZero, decide_eq_false_iff_not]
      omega
    have h3 : PyNum.ltZero (PyNum.int z) = true := by
      simp only [PyNum.ltZero, decide_eq_true_eq]
      omega
    rw [h1]
    simp only [Bool.false_eq_true, if_false, h2, h3, if_true]
  · intro s
    cases hdn : scaleDown s with
    | error e =>
      refine ⟨e, ?_⟩
      show (scaleDown s).bind _ = Except.error e
      rw [hdn]
      rfl
    | ok s1 =>
      refine ⟨"TypeError: unsupported operand type for +=: NoneType and int", ?_⟩
      show (scaleDown s).bind _ = Except.error _
      rw [hdn]
      rfl

/-- Witness for `c8_scale_by`: its positive-delta conjunct at delta 2. -/
theorem c8_scale_by_witness :
    scaleBy fleetABC (PyNum.int 2) = iterateE scaleUp (2 : ℤ).toNat fleetABC :=
  c8_scale_by.1 fleetABC 2 (by omega)

/-- Counterexample to C8 as stated: on a fleet with one `STARTED` backend,
`scaleBy(None)` is not a no-op — it raises a `TypeError` (after performing
a `scaleDown`), instead of leaving all state unchanged. -/
theorem c8_counterexample :
    scaleBy ⟨[⟨0, BackendStatus.STARTED⟩], [], [], []⟩ PyNum.none =
      Except.error "TypeError: unsupported operand type for +=: NoneType and int" := rfl

/-- C9 (amended): `scaleTo(target)` rejects a negative target as a fatal
configuration error (raising before any mutation), treats a `None`/absent
target as a no-op, ALSO treats a NaN target as a no-op (the guard
`numReplicas != numReplicas` returns silently — NaN is not rejected), and
otherwise repeatedly calls `scaleUp`/`scaleDown` until
`numStarting + numStarted` equals the target. -/
theorem c9_scale_to :
    (∀ s : ASState, scaleTo s PyNum.none = Except.ok s) ∧
    (∀ s : ASState, scaleTo s PyNum.nan = Except.ok s) ∧
    (∀ (s : ASState) (z : ℤ), z < 0 →
      scaleTo s (PyNum.int z) = Except.error
        ("Scaling to a negative number of replicas does not make sense: " ++ toString z)) ∧
    (∀ (s s2 : ASState) (z : ℤ), 0 ≤ z →
      scaleTo s (PyNum.int z) = Except.ok s2 →
      (numWillBeStarted s2 : ℤ) = z) := by
  refine ⟨fun s => rfl, fun s => rfl, ?_, ?_⟩
  · intro s z hz
    unfold scaleTo
    simp only []
    rw [if_pos hz]
  · intro s s2 z hz h
    unfold scaleTo at h
    simp only [] at h
    rw [if_neg (not_lt.mpr hz)] at h
    exact scaleToLoop_ok _ z s s2 rfl h

/-- Witness for `c9_scale_to`: its convergence conjunct at a one-backend
fleet scaled to 1. -/
theorem c9_scale_to_witness :
    (numWillBeStarted ⟨[⟨0, BackendStatus.STARTING⟩], [0], [], []⟩ : ℤ) = 1 :=
  c9_scale_to.2.2.2 ⟨[⟨0, BackendStatus.STOPPED⟩], [], [], []⟩
    ⟨[⟨0, BackendStatus.STARTING⟩], [0], [], []⟩ 1 (by omega) rfl

/-- Counterexample to C9 as stated: a NaN target is not rejected as a fatal
configuration error — `scaleTo(nan)` returns silently, leaving the fleet
unchanged. -/
theorem c9_counterexample :
    scaleTo ⟨[⟨0, BackendStatus.STOPPED⟩], [], [], []⟩ PyNum.nan =
      Except.ok ⟨[⟨0, BackendStatus.STOPPED⟩], [], [], []⟩ := rfl
